import Mathlib

/-!
# SMBIOS table acquisition and DMI table walk (`smbios.cpp`)

A shallow embedding of `SMBios` from `src/smbios/src/smbios.cpp`.

* Pointers are natural-number addresses; `0` is `nullptr`.  Pointer arithmetic is
  plain addition (no wrap-around of the address space is modelled).
* Memory is a function from addresses to values; every byte read goes through
  `read_u8`, which reduces modulo `2^8`.
* Loops are structural recursions on a fuel argument.  Every entry point passes a
  fuel that is provably sufficient (see the `*_fuel` lemmas): the loops of the
  source always terminate, and where the fuel runs out the guard of the loop
  fails as well.
* For the properties about which bytes are touched, the loops have a companion
  `*_reads` function that lists the addresses they dereference, in order.
-/

namespace smbios

/-! ## Memory -/

/-- Byte-addressed memory: the value stored at every address. -/
abbrev Mem := Nat → Nat

/-- Reading one `uint8_t` at address `a`. -/
def read_u8 (mem : Mem) (a : Nat) : Nat := mem a % 256

/-- Reading one little-endian `uint16_t` at address `a`
(`*reinterpret_cast<const uint16_t*>(offset)`). -/
def read_u16 (mem : Mem) (a : Nat) : Nat := read_u8 mem a + 256 * read_u8 mem (a + 1)

/-- Memory that holds the bytes `buf` from address `base` on and `0` elsewhere. -/
def mem_of (base : Nat) (buf : List Nat) : Mem :=
  fun a => if base ≤ a then buf.getD (a - base) 0 else 0

/-! ## Declarations of headers that are not part of the sources

`smbios.h` and `smbios_anchor.h` are not available; the few declarations that
`smbios.cpp` needs from them are modelled here. -/

/-- Modelled from the spec: `SMBiosHandler::EndOfTable` (declared in the absent
`smbios.h`); the spec names the End-Of-Table sentinel as structure type 127. -/
def EndOfTable : Nat := 127

/-- Modelled from the spec: `DMIHeader` (declared in the absent `smbios.h`): structure
type (one byte), structure length (one byte), structure handle (two bytes) and `data`,
the non-owning back-reference to the first byte of the structure. -/
structure DMIHeader where
  type : Nat
  length : Nat
  handle : Nat
  data : Nat
deriving DecidableEq, Repr

/-- The header found at address `p`:
`DMIHeader header = *reinterpret_cast<const DMIHeader*>(p); header.data = p;`. -/
def header_at (mem : Mem) (p : Nat) : DMIHeader :=
  { type := read_u8 mem p
    length := read_u8 mem (p + 1)
    handle := read_u16 mem (p + 2)
    data := p }

/-! ## `SMBios::count_smbios_structures` -/

/-- The inner loop of `count_smbios_structures`:
`while ((*reinterpret_cast<const uint16_t*>(offset) != 0) && (offset < end_table)) offset++;`. -/
def count_skip (mem : Mem) (end_table : Nat) : Nat → Nat → Nat
  | 0, offset => offset
  | fuel + 1, offset =>
    if read_u16 mem offset ≠ 0 ∧ offset < end_table then
      count_skip mem end_table fuel (offset + 1)
    else offset

/-- The outer loop of `count_smbios_structures`, `while (offset < end_table) { ... }`;
returns the final `structures_count`. -/
def count_loop (mem : Mem) (end_table : Nat) : Nat → Nat → Nat → Nat
  | 0, _, structures_count => structures_count
  | fuel + 1, offset, structures_count =>
    if offset < end_table then
      let offset1 := offset + read_u8 mem (offset + 1)
      let offset2 := count_skip mem end_table (end_table - offset1 + 1) offset1
      count_loop mem end_table fuel (offset2 + 2) (structures_count + 1)
    else structures_count

/-- The value that `count_smbios_structures` stores in `structures_count_`, for a table
at `table_base` of `table_size` bytes. -/
def count_structures (mem : Mem) (table_base table_size : Nat) : Nat :=
  count_loop mem (table_base + table_size) table_size table_base 0

/-! ## `SMBios::read_smbios_table` -/

/-- The inner loop of `read_smbios_table`:
`while (cur < table_end && (cur[0] != 0 || cur[1] != 0)) cur++;`. -/
def read_skip (mem : Mem) (table_end : Nat) : Nat → Nat → Nat
  | 0, cur => cur
  | fuel + 1, cur =>
    if cur < table_end ∧ (read_u8 mem cur ≠ 0 ∨ read_u8 mem (cur + 1) ≠ 0) then
      read_skip mem table_end fuel (cur + 1)
    else cur

/-- The `for` loop of `read_smbios_table`; `headers_list` is the list built so far. -/
def read_loop (mem : Mem) (table_end number_of_structures : Nat) :
    Nat → Nat → Nat → List DMIHeader → List DMIHeader
  | 0, _, _, headers_list => headers_list
  | fuel + 1, i, current_structure_begin, headers_list =>
    if i < number_of_structures ∧ current_structure_begin ≤ table_end then
      let header := header_at mem current_structure_begin
      if header.length < 4 then headers_list
      else if header.type = EndOfTable then headers_list
      else
        let cur1 := current_structure_begin + header.length
        let cur2 := read_skip mem table_end (table_end - cur1 + 1) cur1
        read_loop mem table_end number_of_structures fuel (i + 1) (cur2 + 2)
          (headers_list ++ [header])
    else headers_list

/-- The headers that `read_smbios_table` appends to `headers_list_` for a table at
`table_base` of `table_size` bytes: the counting pass runs first and bounds the loop. -/
def read_headers (mem : Mem) (table_base table_size : Nat) : List DMIHeader :=
  let number_of_structures := count_structures mem table_base table_size
  read_loop mem (table_base + table_size) number_of_structures number_of_structures 0
    table_base []

/-! ## Structure boundaries

Both passes move from one structure to the next in the same way: skip the fixed
portion (`length` bytes), scan to the first pair of zero bytes, skip that pair. -/

/-- The address at which the walk looks for the structure that follows the one at `p`. -/
def next_structure (mem : Mem) (table_end p : Nat) : Nat :=
  let p1 := p + read_u8 mem (p + 1)
  read_skip mem table_end (table_end - p1 + 1) p1 + 2

/-- The `k`-th structure boundary of the walk that starts at `p`. -/
def boundary (mem : Mem) (table_end : Nat) : Nat → Nat → Nat
  | p, 0 => p
  | p, k + 1 => boundary mem table_end (next_structure mem table_end p) k

/-- A header that the materializing loop records: its length is at least 4 and it is
not the End-Of-Table sentinel. -/
def recordable (h : DMIHeader) : Bool :=
  decide (4 ≤ h.length) && decide (h.type ≠ EndOfTable)

/-! ## The addresses that the two passes dereference -/

/-- The addresses read by the inner loop of `count_smbios_structures`: the 16-bit load
is the left operand of `&&`, so it happens on every evaluation of the guard, before
`offset < end_table` is tested. -/
def count_skip_reads (mem : Mem) (end_table : Nat) : Nat → Nat → List Nat
  | 0, _ => []
  | fuel + 1, offset =>
    [offset, offset + 1] ++
      (if read_u16 mem offset ≠ 0 ∧ offset < end_table then
        count_skip_reads mem end_table fuel (offset + 1)
      else [])

/-- The addresses read by the outer loop of `count_smbios_structures`: `header->length`,
then the reads of the inner loop. -/
def count_loop_reads (mem : Mem) (end_table : Nat) : Nat → Nat → List Nat
  | 0, _ => []
  | fuel + 1, offset =>
    if offset < end_table then
      let offset1 := offset + read_u8 mem (offset + 1)
      let offset2 := count_skip mem end_table (end_table - offset1 + 1) offset1
      [offset + 1] ++ count_skip_reads mem end_table (end_table - offset1 + 1) offset1 ++
        count_loop_reads mem end_table fuel (offset2 + 2)
    else []

/-- The addresses read by the counting pass over a table at `table_base` of
`table_size` bytes. -/
def count_structures_reads (mem : Mem) (table_base table_size : Nat) : List Nat :=
  count_loop_reads mem (table_base + table_size) table_size table_base

/-- The addresses read by the inner loop of `read_smbios_table`: `cur[0]` only when
`cur < table_end`, and `cur[1]` only when `cur[0]` is zero. -/
def read_skip_reads (mem : Mem) (table_end : Nat) : Nat → Nat → List Nat
  | 0, _ => []
  | fuel + 1, cur =>
    if cur < table_end then
      [cur] ++ (if read_u8 mem cur ≠ 0 then [] else [cur + 1]) ++
        (if read_u8 mem cur ≠ 0 ∨ read_u8 mem (cur + 1) ≠ 0 then
          read_skip_reads mem table_end fuel (cur + 1)
        else [])
    else []

/-- The addresses read by the `for` loop of `read_smbios_table`.  The copy
`DMIHeader header = *reinterpret_cast<const DMIHeader*>(current_structure_begin)` reads
the whole object; `sizeof_header` stands for `sizeof(DMIHeader)`, which is declared in
the absent `smbios.h`. -/
def read_loop_reads (sizeof_header : Nat) (mem : Mem) (table_end number_of_structures : Nat) :
    Nat → Nat → Nat → List Nat
  | 0, _, _ => []
  | fuel + 1, i, current_structure_begin =>
    if i < number_of_structures ∧ current_structure_begin ≤ table_end then
      let header := header_at mem current_structure_begin
      let hdr := (List.range sizeof_header).map (fun b => current_structure_begin + b)
      if header.length < 4 then hdr
      else if header.type = EndOfTable then hdr
      else
        let cur1 := current_structure_begin + header.length
        let cur2 := read_skip mem table_end (table_end - cur1 + 1) cur1
        hdr ++ read_skip_reads mem table_end (table_end - cur1 + 1) cur1 ++
          read_loop_reads sizeof_header mem table_end number_of_structures fuel (i + 1)
            (cur2 + 2)
    else []

/-- The addresses read by `read_smbios_table` over a table at `table_base` of
`table_size` bytes: those of the counting pass, then those of the `for` loop. -/
def read_headers_reads (sizeof_header : Nat) (mem : Mem) (table_base table_size : Nat) :
    List Nat :=
  let number_of_structures := count_structures mem table_base table_size
  count_structures_reads mem table_base table_size ++
    read_loop_reads sizeof_header mem (table_base + table_size) number_of_structures
      number_of_structures 0 table_base

/-! ## The facade state -/

/-- What the native source reports through the accessors of `SMBiosImpl`
(`unix_bios.h`): table base (`0` for `nullptr`), table size, major and minor version. -/
structure SMBiosImpl where
  table_base : Nat
  table_size : Nat
  major_version : Nat
  minor_version : Nat
deriving DecidableEq, Repr

/-- Modelled from the spec: `SMBIOSEntryPoint32` (declared in the absent
`smbios_anchor.h`), with the fields that `smbios.cpp` reads. -/
structure SMBIOSEntryPoint32 where
  entry_point_checksum : Nat
  entry_point_length : Nat
  major_version : Nat
  minor_version : Nat
  max_structure_size : Nat
  entry_point_revision : Nat
  intermediate_checksum : Nat
  structure_table_length : Nat
  structure_table_address : Nat
  smbios_structures_number : Nat
  smbios_bcd_revision : Nat
deriving DecidableEq, Repr

/-- Modelled from the spec: `SMBIOSEntryPoint64` (declared in the absent
`smbios_anchor.h`), with the fields that `smbios.cpp` reads. -/
structure SMBIOSEntryPoint64 where
  entry_point_checksum : Nat
  entry_point_length : Nat
  major_version : Nat
  minor_version : Nat
  smbios_docrev : Nat
  entry_point_revision : Nat
  reserved : Nat
  max_structure_size : Nat
  structure_table_address : Nat
deriving DecidableEq, Repr

/-- The data members of `SMBios` that `smbios.cpp` uses.  `smbios_entry32_` and
`smbios_entry64_` are pointers that are either null (`false`) or the address of
`entry_point_buffer_[0]` (`true`), the only value the source ever assigns to them:
both are views of the same buffer. -/
structure SMBios where
  native_impl_ : SMBiosImpl
  entry_point_buffer_ : List Nat
  smbios_entry32_ : Bool
  smbios_entry64_ : Bool
  checksum_validated_ : Bool
  major_version_ : Nat
  minor_version_ : Nat
  structures_count_ : Nat
  headers_list_ : List DMIHeader
deriving DecidableEq, Repr

/-- Byte `i` of a byte vector. -/
def byte_at (buf : List Nat) (i : Nat) : Nat := buf.getD i 0 % 256

/-- A little-endian field of `n` bytes at index `i` of a byte vector. -/
def le_field (buf : List Nat) (i : Nat) : Nat → Nat
  | 0 => 0
  | n + 1 => byte_at buf i + 256 * le_field buf (i + 1) n

/-- Modelled from the spec: `sizeof(SMBIOSEntryPoint32)` (`smbios_anchor.h` is absent);
the 32-bit entry point structure has 31 bytes. -/
def smbios32_header_size : Nat := 31

/-- Modelled from the spec: `sizeof(SMBIOSEntryPoint64)` (`smbios_anchor.h` is absent);
the 64-bit entry point structure has 24 bytes. -/
def smbios64_header_size : Nat := 24

/-- Modelled from the spec: the view `reinterpret_cast<const SMBIOSEntryPoint32*>` of a
byte vector, every field at the byte offset and width that the SMBIOS 2.1 entry point
documents. -/
def view32 (buf : List Nat) : SMBIOSEntryPoint32 :=
  { entry_point_checksum := byte_at buf 4
    entry_point_length := byte_at buf 5
    major_version := byte_at buf 6
    minor_version := byte_at buf 7
    max_structure_size := le_field buf 8 2
    entry_point_revision := byte_at buf 10
    intermediate_checksum := byte_at buf 21
    structure_table_length := le_field buf 22 2
    structure_table_address := le_field buf 24 4
    smbios_structures_number := le_field buf 28 2
    smbios_bcd_revision := byte_at buf 30 }

/-- Modelled from the spec: the view `reinterpret_cast<const SMBIOSEntryPoint64*>` of a
byte vector, every field at the byte offset and width that the SMBIOS 3.0 entry point
documents. -/
def view64 (buf : List Nat) : SMBIOSEntryPoint64 :=
  { entry_point_checksum := byte_at buf 5
    entry_point_length := byte_at buf 6
    major_version := byte_at buf 7
    minor_version := byte_at buf 8
    smbios_docrev := byte_at buf 9
    entry_point_revision := byte_at buf 10
    reserved := byte_at buf 11
    max_structure_size := le_field buf 12 4
    structure_table_address := le_field buf 16 8 }

/-- The structure `*smbios_entry32_`. -/
def SMBios.entry32 (st : SMBios) : SMBIOSEntryPoint32 := view32 st.entry_point_buffer_

/-- The structure `*smbios_entry64_`. -/
def SMBios.entry64 (st : SMBios) : SMBIOSEntryPoint64 := view64 st.entry_point_buffer_

/-- The value of `numeric_limits<size_t>::max()` (64-bit `size_t`). -/
def size_t_max : Nat := 2 ^ 64 - 1

/-! ## Accessors of `SMBios` -/

/-- The text that `versionstr << major << '.' << minor` produces. -/
def version_string (major minor : Nat) : String :=
  toString major ++ "." ++ toString minor

/-- `SMBios::get_smbios_version`. -/
def get_smbios_version (st : SMBios) : String :=
  let major_version := st.native_impl_.major_version
  let minor_version := st.native_impl_.minor_version
  if size_t_max ≠ major_version ∧ size_t_max ≠ minor_version then
    version_string major_version minor_version
  else
    version_string st.major_version_ st.minor_version_

/-- `SMBios::get_structures_count`. -/
def get_structures_count (st : SMBios) : Nat := st.structures_count_

/-- `SMBios::get_table_base`; `0` is `nullptr`. -/
def get_table_base (st : SMBios) : Nat :=
  if st.native_impl_.table_base ≠ 0 then st.native_impl_.table_base
  else if st.smbios_entry32_ = true ∧ st.checksum_validated_ = true then
    st.entry32.structure_table_address
  else if st.smbios_entry64_ = true ∧ st.checksum_validated_ = true then
    st.entry64.structure_table_address
  else 0

/-- `SMBios::get_table_size`. -/
def get_table_size (st : SMBios) : Nat :=
  if st.native_impl_.table_size ≠ 0 then st.native_impl_.table_size
  else if st.smbios_entry32_ = true ∧ st.checksum_validated_ = true then
    st.entry32.structure_table_length
  else if st.smbios_entry64_ = true ∧ st.checksum_validated_ = true then
    st.entry64.max_structure_size
  else 0

/-- `SMBios::extract_dmi_version`. -/
def extract_dmi_version (st : SMBios) : SMBios :=
  let st1 :=
    if st.smbios_entry32_ = true ∧ st.checksum_validated_ = true then
      { st with major_version_ := st.entry32.major_version
                minor_version_ := st.entry32.minor_version }
    else st
  if st1.smbios_entry64_ = true ∧ st1.checksum_validated_ = true then
    { st1 with major_version_ := st1.entry64.major_version
               minor_version_ := st1.entry64.minor_version }
  else st1

/-- `SMBios::count_smbios_structures` on the facade state. -/
def count_smbios_structures (mem : Mem) (st : SMBios) : SMBios :=
  { st with structures_count_ := count_structures mem (get_table_base st) (get_table_size st) }

/-- `SMBios::read_smbios_table` on the facade state. -/
def read_smbios_table (mem : Mem) (st : SMBios) : SMBios :=
  let st1 := count_smbios_structures mem st
  let table_base := get_table_base st1
  let table_end := table_base + get_table_size st1
  let number_of_structures := get_structures_count st1
  { st1 with headers_list_ :=
      (read_loop mem table_end number_of_structures number_of_structures 0 table_base
        st1.headers_list_) }

/-- The addresses that `count_smbios_structures` reads on the facade state. -/
def count_smbios_structures_reads (mem : Mem) (st : SMBios) : List Nat :=
  count_structures_reads mem (get_table_base st) (get_table_size st)

/-- The addresses that `read_smbios_table` reads on the facade state. -/
def read_smbios_table_reads (sizeof_header : Nat) (mem : Mem) (st : SMBios) : List Nat :=
  read_headers_reads sizeof_header mem (get_table_base st) (get_table_size st)

/-- The pointer `table_end` of both passes: `get_table_base() + get_table_size()`. -/
def table_end (st : SMBios) : Nat := get_table_base st + get_table_size st

/-- The `k`-th structure boundary of the walk over the table of the facade state. -/
def structure_boundary (mem : Mem) (st : SMBios) (k : Nat) : Nat :=
  boundary mem (table_end st) (get_table_base st) k

/-- The addresses that the `for` loop of `read_smbios_table` reads on the facade state
(the reads of the counting pass that precedes it are not included). -/
def materialize_reads (sizeof_header : Nat) (mem : Mem) (st : SMBios) : List Nat :=
  let number_of_structures := count_structures mem (get_table_base st) (get_table_size st)
  read_loop_reads sizeof_header mem (table_end st) number_of_structures number_of_structures 0
    (get_table_base st)

/-- A freshly constructed facade whose native source supplied a table at `base` of `size`
bytes and no version, and whose scan recorded no entry point. -/
def native_state (base size : Nat) : SMBios :=
  { native_impl_ :=
      { table_base := base, table_size := size,
        major_version := size_t_max, minor_version := size_t_max }
    entry_point_buffer_ := []
    smbios_entry32_ := false
    smbios_entry64_ := false
    checksum_validated_ := false
    major_version_ := 0
    minor_version_ := 0
    structures_count_ := 0
    headers_list_ := [] }

/-- A table whose first header declares `length == 2`; the bytes behind it look like
a structure of type 7. -/
def corrupt_table : List Nat := [1, 2, 0, 0, 7, 4, 0, 0, 0, 0]

/-- A table that ends inside a string section: one header and the byte `A`, with no
terminator. -/
def truncated_table : List Nat := [1, 4, 0, 0, 65]

/-! ## `SMBios::scan_physical_memory` -/

/-- The result type of `detect_smbios_anchor` (`smbios_anchor.h`). -/
inductive SMBiosAnchorType where
  | None
  | SMBios32
  | SMBios64
deriving DecidableEq, Repr

/-- Modelled from the spec: `detect_smbios_anchor` (defined outside the available
sources): the test for the 4-byte 32-bit anchor signature `_SM_` and for the 5-byte
64-bit anchor signature `_SM3_` at the iterator. -/
def detect_smbios_anchor (devmem : Mem) (it : Nat) : SMBiosAnchorType :=
  if read_u8 devmem it = 95 ∧ read_u8 devmem (it + 1) = 83 ∧ read_u8 devmem (it + 2) = 77 ∧
      read_u8 devmem (it + 3) = 95 then SMBiosAnchorType.SMBios32
  else if read_u8 devmem it = 95 ∧ read_u8 devmem (it + 1) = 83 ∧
      read_u8 devmem (it + 2) = 77 ∧ read_u8 devmem (it + 3) = 51 ∧
      read_u8 devmem (it + 4) = 95 then SMBiosAnchorType.SMBios64
  else SMBiosAnchorType.None

/-- The bytes `[it, it + n)` of the dump, as `entry_point_buffer_.assign(it, it + n)`
copies them. -/
def copy_bytes (devmem : Mem) (it n : Nat) : List Nat :=
  (List.range n).map (fun k => read_u8 devmem (it + k))

/-- The body of the scanning loop at iterator `it`. -/
def scan_step (devmem : Mem) (it : Nat) (st : SMBios) : SMBios :=
  let st1 :=
    if detect_smbios_anchor devmem it = SMBiosAnchorType.SMBios32 then
      { st with entry_point_buffer_ := copy_bytes devmem it smbios32_header_size
                smbios_entry32_ := true }
    else st
  if detect_smbios_anchor devmem it = SMBiosAnchorType.SMBios64 then
    { st1 with entry_point_buffer_ := copy_bytes devmem it smbios64_header_size
               smbios_entry64_ := true }
  else st1

/-- The loop of `scan_physical_memory`,
`for (it = begin; std::distance(it, end) > 16; it += 16)`, over a dump of `size` bytes;
the second component is the local variable `checksum`, which the source only prints.
The signed distance is `size - it`; the iterator never passes the end, and the truncated
difference 0 fails the guard just as a negative distance would. -/
def scan_loop (devmem : Mem) (size : Nat) : Nat → Nat → SMBios × Nat → SMBios × Nat
  | 0, _, r => r
  | fuel + 1, it, (st, checksum) =>
    if 16 < size - it then
      scan_loop devmem size fuel (it + 16)
        (scan_step devmem it st, checksum + read_u8 devmem it)
    else (st, checksum)

/-- `SMBios::scan_physical_memory` over a dump of `size` bytes: the new facade state and
the printed `checksum`. -/
def scan_physical_memory (devmem : Mem) (size : Nat) (st : SMBios) : SMBios × Nat :=
  scan_loop devmem size size 0 (st, 0)

/-- The byte sum of an entry point over its declared entry-point length, modulo 256;
`length_index` is the index of the length byte (5 for the 32-bit anchor, 6 for the
64-bit one). -/
def entry_point_sum (buf : List Nat) (length_index : Nat) : Nat :=
  ((buf.take (byte_at buf length_index)).map (fun b => b % 256)).sum % 256

/-! ## Synthetic tables

A table buffer "made of structures": the description of a table by the list of its
structures, used to state what the walk should find. -/

/-- One DMI structure of a synthetic table: the header fields, the rest of the fixed
portion (`body`), and the bytes of the string section without its terminator. -/
structure DmiStructure where
  type : Nat
  length : Nat
  handle : Nat
  body : List Nat
  strings : List Nat
deriving DecidableEq, Repr

/-- The bytes of a structure: header, rest of the fixed portion, string section, and the
two zero bytes that end the string section. -/
def encode_structure (s : DmiStructure) : List Nat :=
  [s.type, s.length, s.handle % 256, s.handle / 256 % 256] ++ s.body ++ s.strings ++ [0, 0]

/-- The bytes of a table: its structures one after the other. -/
def encode_table : List DmiStructure → List Nat
  | [] => []
  | s :: ss => encode_structure s ++ encode_table ss

/-- The string section has no pair of zero bytes before its terminator: no two
consecutive zero bytes inside, and no zero byte right before the terminator. -/
def strings_ok : List Nat → Bool
  | [] => true
  | [a] => decide (a ≠ 0)
  | a :: b :: rest => (decide (a ≠ 0) || decide (b ≠ 0)) && strings_ok (b :: rest)

/-- A well-formed structure: its string section ends at its terminator, and a declared
length of at least 4 is the length of its fixed portion. -/
def well_formed (s : DmiStructure) : Bool :=
  strings_ok s.strings && decide (4 ≤ s.length → s.body.length + 4 = s.length)

/-- A structure that is neither the End-Of-Table sentinel nor corrupt (`length < 4`). -/
def is_regular (s : DmiStructure) : Bool :=
  decide (4 ≤ s.length) && decide (s.type ≠ EndOfTable)

/-- The memory holds the bytes `bytes` from address `a` on. -/
def holds (mem : Mem) (a : Nat) (bytes : List Nat) : Prop :=
  ∀ i, i < bytes.length → read_u8 mem (a + i) = bytes.getD i 0

/-- The scenario structure: type 1, length 27, strings "Vendor" and "Product". -/
def vendor_structure : DmiStructure :=
  { type := 1, length := 27, handle := 0, body := List.replicate 23 0,
    strings := [86, 101, 110, 100, 111, 114, 0, 80, 114, 111, 100, 117, 99, 116] }

/-- An End-Of-Table structure: type 127, length 4, no strings. -/
def end_of_table_structure : DmiStructure :=
  { type := 127, length := 4, handle := 0, body := [], strings := [] }

/-! ## Sample entry points and dumps -/

/-- A 32-bit entry point (version 2.7, table of 49 bytes at address `0x1000`) whose 31
bytes sum to 0 modulo 256. -/
def entry_point32_sample : List Nat :=
  [95, 83, 77, 95, 121, 31, 2, 7, 0, 1, 0, 0, 0, 0, 0, 0,
   95, 68, 77, 73, 95, 254, 49, 0, 0, 16, 0, 0, 2, 0, 39]

/-- The entry point `entry_point32_sample` with its major version byte changed from 2
to 3 and no other byte adjusted: its bytes sum to 1 modulo 256. -/
def entry_point32_damaged : List Nat :=
  [95, 83, 77, 95, 121, 31, 3, 7, 0, 1, 0, 0, 0, 0, 0, 0,
   95, 68, 77, 73, 95, 254, 49, 0, 0, 16, 0, 0, 2, 0, 39]

/-- A second 32-bit entry point (table of 86 bytes at address `0x2000`). -/
def entry_point32_other : List Nat :=
  [95, 83, 77, 95, 121, 31, 2, 7, 0, 1, 0, 0, 0, 0, 0, 0,
   95, 68, 77, 73, 95, 201, 86, 0, 0, 32, 0, 0, 2, 0, 39]

/-- A dump of 48 bytes with `entry_point32_sample` at offset 0. -/
def dump_one_anchor : List Nat := entry_point32_sample ++ List.replicate 17 0

/-- A dump of 48 bytes with `entry_point32_damaged` at offset 0. -/
def dump_damaged_anchor : List Nat := entry_point32_damaged ++ List.replicate 17 0

/-- A dump of 64 bytes with `entry_point32_sample` at offset 0 and `entry_point32_other`
at offset 32. -/
def dump_two_anchors : List Nat := entry_point32_sample ++ [0] ++ entry_point32_other ++ [0]

/-- A facade state without a native table in which both entry-point pointers are set
and the checksum flag is set; the buffer holds `entry_point32_sample`. -/
def both_entries_state : SMBios :=
  { native_state 0 0 with
    entry_point_buffer_ := entry_point32_sample
    smbios_entry32_ := true
    smbios_entry64_ := true
    checksum_validated_ := true }

/-- A freshly constructed facade whose native source supplied the version 0.0. -/
def native_version_zero_state : SMBios :=
  { native_state 0 0 with
    native_impl_ := { table_base := 0, table_size := 0, major_version := 0, minor_version := 0 } }

/-- The string is the text of a version number, `<major>.<minor>`. -/
def is_version_string (s : String) : Prop := ∃ major minor : Nat, s = version_string major minor

/-! ## Notions for the layout of the recorded headers -/

/-- Two consecutive zero bytes at address `p`. -/
def double_zero (mem : Mem) (p : Nat) : Prop :=
  read_u8 mem p = 0 ∧ read_u8 mem (p + 1) = 0

/-- A table of six bytes whose only header declares a length of 200. -/
def overlong_table : List Nat := [1, 200, 0, 0, 0, 0]

/-! ## The offsets and addresses that the anchor scan touches -/

/-- The offsets at which the loop of `scan_physical_memory` runs its body, that is, at
which it calls `detect_smbios_anchor`. -/
def scan_loop_tested (size : Nat) : Nat → Nat → List Nat
  | 0, _ => []
  | fuel + 1, it =>
    if 16 < size - it then it :: scan_loop_tested size fuel (it + 16) else []

/-- The offsets that `scan_physical_memory` tests in a dump of `size` bytes. -/
def scan_tested_offsets (size : Nat) : List Nat := scan_loop_tested size size 0

/-- The offsets of the dump that one loop body reads itself: `*it` for the checksum, and
the range that each `entry_point_buffer_.assign` copies (the reads inside
`detect_smbios_anchor` are not listed). -/
def scan_step_reads (devmem : Mem) (it : Nat) : List Nat :=
  [it] ++
    (if detect_smbios_anchor devmem it = SMBiosAnchorType.SMBios32 then
      (List.range smbios32_header_size).map (fun k => it + k) else []) ++
    (if detect_smbios_anchor devmem it = SMBiosAnchorType.SMBios64 then
      (List.range smbios64_header_size).map (fun k => it + k) else [])

/-- The offsets of the dump that the loop of `scan_physical_memory` reads. -/
def scan_loop_reads (devmem : Mem) (size : Nat) : Nat → Nat → List Nat
  | 0, _ => []
  | fuel + 1, it =>
    if 16 < size - it then
      scan_step_reads devmem it ++ scan_loop_reads devmem size fuel (it + 16)
    else []

/-- The offsets that `scan_physical_memory` reads in a dump of `size` bytes. -/
def scan_physical_memory_reads (devmem : Mem) (size : Nat) : List Nat :=
  scan_loop_reads devmem size size 0

/-- A dump of 32 bytes: 16 zero bytes, then the first 16 bytes of
`entry_point32_sample`, so that the signature `_SM_` stands at offset 16. -/
def dump_late_anchor : List Nat :=
  List.replicate 16 0 ++ [95, 83, 77, 95, 121, 31, 2, 7, 0, 1, 0, 0, 0, 0, 0, 0]

/-- A dump of 20 bytes: the first 20 bytes of `entry_point32_sample`. -/
def dump_short_anchor : List Nat :=
  [95, 83, 77, 95, 121, 31, 2, 7, 0, 1, 0, 0, 0, 0, 0, 0, 95, 68, 77, 73]

/-! ## The source of the table base and of the table size -/

/-- The branch that `get_table_base`, resp. `get_table_size`, returns from. -/
inductive TableSource where
  | native
  | entry32
  | entry64
  | none
deriving DecidableEq, Repr

/-- The branch from which `get_table_base` returns. -/
def table_base_source (st : SMBios) : TableSource :=
  if st.native_impl_.table_base ≠ 0 then TableSource.native
  else if st.smbios_entry32_ = true ∧ st.checksum_validated_ = true then TableSource.entry32
  else if st.smbios_entry64_ = true ∧ st.checksum_validated_ = true then TableSource.entry64
  else TableSource.none

/-- The branch from which `get_table_size` returns. -/
def table_size_source (st : SMBios) : TableSource :=
  if st.native_impl_.table_size ≠ 0 then TableSource.native
  else if st.smbios_entry32_ = true ∧ st.checksum_validated_ = true then TableSource.entry32
  else if st.smbios_entry64_ = true ∧ st.checksum_validated_ = true then TableSource.entry64
  else TableSource.none

/-- The table base that a source supplies. -/
def base_of_source (st : SMBios) : TableSource → Nat
  | TableSource.native => st.native_impl_.table_base
  | TableSource.entry32 => st.entry32.structure_table_address
  | TableSource.entry64 => st.entry64.structure_table_address
  | TableSource.none => 0

/-- The table size that a source supplies. -/
def size_of_source (st : SMBios) : TableSource → Nat
  | TableSource.native => st.native_impl_.table_size
  | TableSource.entry32 => st.entry32.structure_table_length
  | TableSource.entry64 => st.entry64.max_structure_size
  | TableSource.none => 0

/-- A facade state whose native source reports a table base but the size 0, next to a
checksum-valid 32-bit entry point (`entry_point32_sample`). -/
def mixed_source_state : SMBios :=
  { native_state 4096 0 with
    entry_point_buffer_ := entry_point32_sample
    smbios_entry32_ := true
    checksum_validated_ := true }

/-- A facade state without native table whose checksum-valid 32-bit entry point declares
the table address 0 and the table length 49. -/
def null_address_state : SMBios :=
  { native_state 0 0 with
    entry_point_buffer_ :=
      [95, 83, 77, 95, 121, 31, 2, 7, 0, 1, 0, 0, 0, 0, 0, 0,
       95, 68, 77, 73, 95, 14, 49, 0, 0, 0, 0, 0, 2, 0, 39]
    smbios_entry32_ := true
    checksum_validated_ := true }

/-! ## Basic facts about the two string-section scans -/

theorem read_u8_lt (mem : Mem) (a : Nat) : read_u8 mem a < 256 :=
  Nat.mod_lt _ (by decide)

theorem read_u16_ne_zero_iff (mem : Mem) (a : Nat) :
    read_u16 mem a ≠ 0 ↔ (read_u8 mem a ≠ 0 ∨ read_u8 mem (a + 1) ≠ 0) := by
  unfold read_u16
  omega

/-- Both passes scan for the string-section terminator in the same way. -/
theorem count_skip_eq_read_skip (mem : Mem) (e : Nat) :
    ∀ fuel offset, count_skip mem e fuel offset = read_skip mem e fuel offset := by
  intro fuel
  induction fuel with
  | zero => intro offset; rfl
  | succ f ih =>
    intro offset
    simp only [count_skip, read_skip, read_u16_ne_zero_iff, ih]
    by_cases h1 : offset < e <;>
      by_cases h2 : (read_u8 mem offset ≠ 0 ∨ read_u8 mem (offset + 1) ≠ 0) <;>
      simp [h1, h2]

theorem read_skip_ge (mem : Mem) (e : Nat) :
    ∀ fuel cur, cur ≤ read_skip mem e fuel cur := by
  intro fuel
  induction fuel with
  | zero => intro cur; exact Nat.le_refl _
  | succ f ih =>
    intro cur
    simp only [read_skip]
    split
    · exact Nat.le_trans (Nat.le_succ cur) (ih (cur + 1))
    · exact Nat.le_refl _

/-- The fuel `table_end - cur` handed to the scan is sufficient: more fuel does not
change where the scan stops. -/
theorem read_skip_fuel (mem : Mem) (e : Nat) :
    ∀ fuel cur, e - cur ≤ fuel →
      read_skip mem e fuel cur = read_skip mem e (e - cur) cur := by
  intro fuel
  induction fuel with
  | zero =>
    intro cur h
    have : e - cur = 0 := by omega
    rw [this]
  | succ f ih =>
    intro cur h
    by_cases hc : cur < e
    · obtain ⟨g, hg⟩ : ∃ g, e - cur = g + 1 := ⟨e - cur - 1, by omega⟩
      rw [hg]
      simp only [read_skip]
      split
      · rw [ih (cur + 1) (by omega)]
        have : e - (cur + 1) = g := by omega
        rw [this]
      · rfl
    · have h0 : e - cur = 0 := by omega
      rw [h0]
      simp [read_skip, hc]

/-- Where the scan stops: at the table end (or beyond, when it started there), or at
the first pair of zero bytes. -/
theorem read_skip_stop (mem : Mem) (e : Nat) :
    ∀ fuel cur, e - cur ≤ fuel →
      e ≤ read_skip mem e fuel cur ∨
        (read_u8 mem (read_skip mem e fuel cur) = 0 ∧
          read_u8 mem (read_skip mem e fuel cur + 1) = 0) := by
  intro fuel
  induction fuel with
  | zero => intro cur h; left; simp only [read_skip]; omega
  | succ f ih =>
    intro cur h
    simp only [read_skip]
    split
    · exact ih (cur + 1) (by omega)
    · rename_i hn
      by_cases hc : cur < e
      · right
        simp only [hc, true_and, not_or, not_not] at hn
        exact hn
      · left; omega

/-- A scan that starts inside the table never moves past the table end. -/
theorem read_skip_le (mem : Mem) (e : Nat) :
    ∀ fuel cur, cur ≤ e → read_skip mem e fuel cur ≤ e := by
  intro fuel
  induction fuel with
  | zero => intro cur h; exact h
  | succ f ih =>
    intro cur h
    simp only [read_skip]
    split
    · rename_i hc
      exact ih (cur + 1) hc.1
    · exact h

/-! ## The counting pass in terms of structure boundaries -/

theorem next_structure_ge (mem : Mem) (e p : Nat) : p + 2 ≤ next_structure mem e p := by
  unfold next_structure
  have := read_skip_ge mem e (e - (p + read_u8 mem (p + 1)) + 1) (p + read_u8 mem (p + 1))
  simp only
  omega

theorem boundary_succ (mem : Mem) (e : Nat) :
    ∀ k p, boundary mem e p (k + 1) = next_structure mem e (boundary mem e p k) := by
  intro k
  induction k with
  | zero => intro p; rfl
  | succ k ih =>
    intro p
    show boundary mem e (next_structure mem e p) (k + 1) = _
    rw [ih]
    rfl

theorem boundary_ge (mem : Mem) (e : Nat) :
    ∀ k p, p + 2 * k ≤ boundary mem e p k := by
  intro k
  induction k with
  | zero => intro p; exact Nat.le_refl _
  | succ k ih =>
    intro p
    have h1 := ih (next_structure mem e p)
    have h2 := next_structure_ge mem e p
    show _ ≤ boundary mem e (next_structure mem e p) k
    omega

theorem boundary_lt_succ (mem : Mem) (e p k : Nat) :
    boundary mem e p k < boundary mem e p (k + 1) := by
  rw [boundary_succ]
  have := next_structure_ge mem e (boundary mem e p k)
  omega

theorem boundary_strict_mono (mem : Mem) (e p : Nat) {j k : Nat} (h : j < k) :
    boundary mem e p j < boundary mem e p k := by
  induction k with
  | zero => omega
  | succ k ih =>
    have h2 := boundary_lt_succ mem e p k
    by_cases hjk : j = k
    · subst hjk; exact h2
    · have := ih (by omega)
      omega

theorem count_loop_step (mem : Mem) (e fuel offset c : Nat) (h : offset < e) :
    count_loop mem e (fuel + 1) offset c =
      count_loop mem e fuel (next_structure mem e offset) (c + 1) := by
  simp only [count_loop, h, if_true, next_structure, count_skip_eq_read_skip]

theorem count_loop_stop (mem : Mem) (e fuel offset c : Nat) (h : ¬ offset < e) :
    count_loop mem e fuel offset c = c := by
  cases fuel with
  | zero => rfl
  | succ f => simp only [count_loop, h, if_false]

/-- The counter is an accumulator. -/
theorem count_loop_acc (mem : Mem) (e : Nat) :
    ∀ fuel offset c, count_loop mem e fuel offset c = c + count_loop mem e fuel offset 0 := by
  intro fuel
  induction fuel with
  | zero => intro offset c; rfl
  | succ f ih =>
    intro offset c
    by_cases h : offset < e
    · rw [count_loop_step _ _ _ _ _ h, count_loop_step _ _ _ _ _ h, ih _ (c + 1), ih _ (0 + 1)]
      omega
    · rw [count_loop_stop _ _ _ _ _ h, count_loop_stop _ _ _ _ _ h, Nat.add_zero]

theorem count_loop_fuel_eq (mem : Mem) (e : Nat) :
    ∀ f1 f2 offset c, e - offset ≤ f1 → e - offset ≤ f2 →
      count_loop mem e f1 offset c = count_loop mem e f2 offset c := by
  intro f1
  induction f1 with
  | zero =>
    intro f2 offset c h1 _
    rw [count_loop_stop _ _ _ _ _ (by omega), count_loop_stop _ _ _ _ _ (by omega)]
  | succ f ih =>
    intro f2 offset c h1 h2
    by_cases hc : offset < e
    · obtain ⟨g, hg⟩ : ∃ g, f2 = g + 1 := ⟨f2 - 1, by omega⟩
      have hn := next_structure_ge mem e offset
      rw [hg, count_loop_step _ _ _ _ _ hc, count_loop_step _ _ _ _ _ hc]
      exact ih g _ _ (by omega) (by omega)
    · rw [count_loop_stop _ _ _ _ _ hc, count_loop_stop _ _ _ _ _ hc]

/-- The fuel `table_size` is sufficient for the counting loop: every iteration moves
the offset forward by at least two bytes, so more fuel does not change the count. -/
theorem count_loop_fuel (mem : Mem) (e fuel offset c : Nat) (h : e - offset ≤ fuel) :
    count_loop mem e fuel offset c = count_loop mem e (e - offset) offset c :=
  count_loop_fuel_eq mem e fuel (e - offset) offset c h (Nat.le_refl _)

/-- Every boundary that the counting loop counts lies inside the table. -/
theorem count_loop_lt (mem : Mem) (e : Nat) :
    ∀ fuel offset j, j < count_loop mem e fuel offset 0 → boundary mem e offset j < e := by
  intro fuel
  induction fuel with
  | zero => intro offset j h; simp [count_loop] at h
  | succ f ih =>
    intro offset j h
    by_cases hc : offset < e
    · rw [count_loop_step _ _ _ _ _ hc, count_loop_acc] at h
      cases j with
      | zero => exact hc
      | succ j => exact ih (next_structure mem e offset) j (by omega)
    · rw [count_loop_stop _ _ _ _ _ hc] at h; omega

/-- The counting loop stops at the first boundary that is not inside the table. -/
theorem count_loop_ge (mem : Mem) (e : Nat) :
    ∀ fuel offset, e - offset ≤ fuel →
      e ≤ boundary mem e offset (count_loop mem e fuel offset 0) := by
  intro fuel
  induction fuel with
  | zero => intro offset h; simp only [count_loop, boundary]; omega
  | succ f ih =>
    intro offset h
    by_cases hc : offset < e
    · have hn := next_structure_ge mem e offset
      rw [count_loop_step _ _ _ _ _ hc, count_loop_acc, Nat.add_comm]
      exact ih (next_structure mem e offset) (by omega)
    · rw [count_loop_stop _ _ _ _ _ hc]
      simp only [boundary]; omega

theorem count_structures_lt (mem : Mem) (base size j : Nat)
    (h : j < count_structures mem base size) : boundary mem (base + size) base j < base + size :=
  count_loop_lt mem (base + size) size base j h

theorem count_structures_ge (mem : Mem) (base size : Nat) :
    base + size ≤ boundary mem (base + size) base (count_structures mem base size) :=
  count_loop_ge mem (base + size) size base (by omega)

/-- The count is the number of structure boundaries inside the table. -/
theorem lt_count_structures_iff (mem : Mem) (base size j : Nat) :
    j < count_structures mem base size ↔ boundary mem (base + size) base j < base + size := by
  constructor
  · exact count_structures_lt mem base size j
  · intro h
    by_contra hj
    have hle : count_structures mem base size ≤ j := by omega
    have h1 := count_structures_ge mem base size
    rcases Nat.lt_or_eq_of_le hle with h2 | h2
    · have := boundary_strict_mono mem (base + size) base h2
      omega
    · rw [h2] at h1; omega

/-! ## The materializing pass in terms of structure boundaries -/

/-- The list built so far is an accumulator. -/
theorem read_loop_acc (mem : Mem) (e n : Nat) :
    ∀ fuel i cur acc,
      read_loop mem e n fuel i cur acc = acc ++ read_loop mem e n fuel i cur [] := by
  intro fuel
  induction fuel with
  | zero => intro i cur acc; simp [read_loop]
  | succ f ih =>
    intro i cur acc
    simp only [read_loop]
    split
    · split
      · simp
      · split
        · simp
        · rw [ih _ _ (acc ++ _), ih _ _ ([] ++ _)]
          simp
    · simp

/-- One iteration that records a header. -/
theorem read_loop_cons (mem : Mem) (e n fuel i cur : Nat) (hi : i < n) (hc : cur ≤ e)
    (hr : recordable (header_at mem cur) = true) :
    read_loop mem e n (fuel + 1) i cur [] =
      header_at mem cur :: read_loop mem e n fuel (i + 1) (next_structure mem e cur) [] := by
  simp only [recordable, Bool.and_eq_true, decide_eq_true_eq] at hr
  have h1 : ¬ (header_at mem cur).length < 4 := by omega
  simp only [read_loop, hi, hc, and_self, if_true, h1, if_false, hr.2]
  rw [read_loop_acc]
  rfl

/-- The loop records nothing when its guard fails or the header is not recordable. -/
theorem read_loop_nil (mem : Mem) (e n fuel i cur : Nat)
    (h : ¬ (i < n ∧ cur ≤ e ∧ recordable (header_at mem cur) = true)) :
    read_loop mem e n fuel i cur [] = [] := by
  cases fuel with
  | zero => rfl
  | succ f =>
    simp only [read_loop]
    split
    · rename_i hg
      split
      · rfl
      · split
        · rfl
        · rename_i h1 h2
          exfalso
          apply h
          refine ⟨hg.1, hg.2, ?_⟩
          simp only [recordable, Bool.and_eq_true, decide_eq_true_eq]
          exact ⟨by omega, h2⟩
    · rfl

/-- The recorded headers are the headers at the first structure boundaries. -/
theorem read_loop_eq_map (mem : Mem) (e n : Nat) :
    ∀ fuel i cur,
      read_loop mem e n fuel i cur [] =
        (List.range (read_loop mem e n fuel i cur []).length).map
          (fun j => header_at mem (boundary mem e cur j)) := by
  intro fuel
  induction fuel with
  | zero => intro i cur; simp [read_loop]
  | succ f ih =>
    intro i cur
    by_cases h : i < n ∧ cur ≤ e ∧ recordable (header_at mem cur) = true
    · rw [read_loop_cons mem e n f i cur h.1 h.2.1 h.2.2]
      rw [List.length_cons, List.range_succ_eq_map, List.map_cons, List.map_map]
      congr 1
      exact ih (i + 1) (next_structure mem e cur)
    · rw [read_loop_nil mem e n _ i cur h]
      rfl

/-- Every header up to the last recorded one is recordable. -/
theorem read_loop_recordable (mem : Mem) (e n : Nat) :
    ∀ fuel i cur j, j < (read_loop mem e n fuel i cur []).length →
      recordable (header_at mem (boundary mem e cur j)) = true := by
  intro fuel
  induction fuel with
  | zero => intro i cur j h; simp [read_loop] at h
  | succ f ih =>
    intro i cur j hj
    by_cases h : i < n ∧ cur ≤ e ∧ recordable (header_at mem cur) = true
    · rw [read_loop_cons mem e n f i cur h.1 h.2.1 h.2.2, List.length_cons] at hj
      cases j with
      | zero => exact h.2.2
      | succ j => exact ih (i + 1) (next_structure mem e cur) j (by omega)
    · rw [read_loop_nil mem e n _ i cur h] at hj
      simp at hj

/-- The loop index bounds the number of recorded headers. -/
theorem read_loop_length_le (mem : Mem) (e n : Nat) :
    ∀ fuel i cur, i + (read_loop mem e n fuel i cur []).length ≤ max i n := by
  intro fuel
  induction fuel with
  | zero => intro i cur; simp [read_loop]
  | succ f ih =>
    intro i cur
    by_cases h : i < n ∧ cur ≤ e ∧ recordable (header_at mem cur) = true
    · rw [read_loop_cons mem e n f i cur h.1 h.2.1 h.2.2, List.length_cons]
      have := ih (i + 1) (next_structure mem e cur)
      omega
    · rw [read_loop_nil mem e n _ i cur h]
      simp

/-- When the loop stops before its index bound, it stopped at a boundary past the
table end or at a header that is not recordable. -/
theorem read_loop_stop (mem : Mem) (e n : Nat) :
    ∀ fuel i cur, n ≤ i + fuel →
      i + (read_loop mem e n fuel i cur []).length < n →
      boundary mem e cur (read_loop mem e n fuel i cur []).length ≤ e →
      recordable (header_at mem (boundary mem e cur (read_loop mem e n fuel i cur []).length))
        = false := by
  intro fuel
  induction fuel with
  | zero => intro i cur hf hl _; simp [read_loop] at hl; omega
  | succ f ih =>
    intro i cur hf hl hb
    by_cases h : i < n ∧ cur ≤ e ∧ recordable (header_at mem cur) = true
    · rw [read_loop_cons mem e n f i cur h.1 h.2.1 h.2.2, List.length_cons] at hl hb ⊢
      exact ih (i + 1) (next_structure mem e cur) (by omega) (by omega) hb
    · rw [read_loop_nil mem e n _ i cur h] at hl hb ⊢
      simp only [List.length_nil, boundary, Nat.add_zero] at hl hb ⊢
      simp only [hl, hb, true_and, Bool.not_eq_true] at h
      exact h

/-- The fuel `number_of_structures` is sufficient for the materializing loop: more fuel
does not change the list. -/
theorem read_loop_fuel (mem : Mem) (e n : Nat) :
    ∀ f1 f2 i cur, n - i ≤ f1 → n - i ≤ f2 →
      read_loop mem e n f1 i cur [] = read_loop mem e n f2 i cur [] := by
  intro f1
  induction f1 with
  | zero =>
    intro f2 i cur h1 _
    rw [read_loop_nil mem e n 0 i cur (fun h => by omega),
      read_loop_nil mem e n f2 i cur (fun h => by omega)]
  | succ f ih =>
    intro f2 i cur h1 h2
    by_cases h : i < n ∧ cur ≤ e ∧ recordable (header_at mem cur) = true
    · obtain ⟨g, rfl⟩ : ∃ g, f2 = g + 1 := ⟨f2 - 1, by omega⟩
      rw [read_loop_cons mem e n f i cur h.1 h.2.1 h.2.2,
        read_loop_cons mem e n g i cur h.1 h.2.1 h.2.2,
        ih g (i + 1) _ (by omega) (by omega)]
    · rw [read_loop_nil mem e n _ i cur h, read_loop_nil mem e n _ i cur h]

/-! ## The two passes together -/

theorem read_headers_eq_map (mem : Mem) (base size : Nat) :
    read_headers mem base size =
      (List.range (read_headers mem base size).length).map
        (fun j => header_at mem (boundary mem (base + size) base j)) :=
  read_loop_eq_map mem (base + size) _ _ 0 base

theorem read_headers_recordable (mem : Mem) (base size j : Nat)
    (h : j < (read_headers mem base size).length) :
    recordable (header_at mem (boundary mem (base + size) base j)) = true :=
  read_loop_recordable mem (base + size) _ _ 0 base j h

theorem read_headers_length_le (mem : Mem) (base size : Nat) :
    (read_headers mem base size).length ≤ count_structures mem base size := by
  have := read_loop_length_le mem (base + size) (count_structures mem base size)
    (count_structures mem base size) 0 base
  simp only [Nat.zero_add, Nat.zero_max] at this
  exact this

/-- When fewer headers are recorded than were counted, the walk met a header that is
not recordable. -/
theorem read_headers_stop (mem : Mem) (base size : Nat)
    (h : (read_headers mem base size).length < count_structures mem base size) :
    recordable (header_at mem
      (boundary mem (base + size) base (read_headers mem base size).length)) = false := by
  have hb := count_structures_lt mem base size _ h
  exact read_loop_stop mem (base + size) (count_structures mem base size)
    (count_structures mem base size) 0 base (by omega) (by simpa [read_headers] using h)
    (Nat.le_of_lt hb)

/-- The number of recorded headers, from the boundaries of the walk: `k` headers are
recorded when the first `k` boundaries lie in the table and carry recordable headers,
and the `k`-th boundary is outside the table or carries a header that is not. -/
theorem read_headers_length_eq (mem : Mem) (base size k : Nat)
    (hgood : ∀ j, j < k → boundary mem (base + size) base j < base + size ∧
      recordable (header_at mem (boundary mem (base + size) base j)) = true)
    (hstop : boundary mem (base + size) base k < base + size →
      recordable (header_at mem (boundary mem (base + size) base k)) = false) :
    (read_headers mem base size).length = k := by
  rcases Nat.lt_trichotomy (read_headers mem base size).length k with h | h | h
  · have h1 := (hgood _ h).1
    have h2 := (lt_count_structures_iff mem base size _).2 h1
    have h3 := read_headers_stop mem base size h2
    rw [(hgood _ h).2] at h3
    exact absurd h3 (by decide)
  · exact h
  · have h1 := read_headers_recordable mem base size k h
    have h2 := read_headers_length_le mem base size
    have h3 := count_structures_lt mem base size k (by omega)
    rw [hstop h3] at h1
    exact absurd h1 (by decide)

/-! ## Walking a synthetic table -/

theorem holds_append {mem : Mem} {a : Nat} {x y : List Nat} (h : holds mem a (x ++ y)) :
    holds mem a x ∧ holds mem (a + x.length) y := by
  constructor
  · intro i hi
    have := h i (by rw [List.length_append]; omega)
    rw [this, List.getD_append _ _ _ _ hi]
  · intro i hi
    have := h (x.length + i) (by rw [List.length_append]; omega)
    rw [Nat.add_assoc, this, List.getD_append_right _ _ _ _ (by omega)]
    congr 1
    omega

theorem holds_cons {mem : Mem} {a b : Nat} {x : List Nat} (h : holds mem a (b :: x)) :
    read_u8 mem a = b ∧ holds mem (a + 1) x := by
  constructor
  · simpa using h 0 (by simp)
  · intro i hi
    have := h (i + 1) (by simp; omega)
    rw [Nat.add_assoc, Nat.add_comm 1 i, this]
    rfl

theorem holds_mem_of (base : Nat) (buf : List Nat) (hb : ∀ b ∈ buf, b < 256) :
    holds (mem_of base buf) base buf := by
  intro i hi
  have hlt : buf.getD i 0 < 256 := by
    rw [List.getD_eq_getElem _ _ hi]
    exact hb _ (List.getElem_mem hi)
  simp only [read_u8, mem_of, Nat.le_add_right, if_true, Nat.add_sub_cancel_left]
  exact Nat.mod_eq_of_lt hlt

theorem strings_ok_tail {a : Nat} {rest : List Nat} (h : strings_ok (a :: rest) = true) :
    strings_ok rest = true := by
  cases rest with
  | nil => rfl
  | cons b r =>
    simp only [strings_ok, Bool.and_eq_true] at h
    exact h.2

theorem strings_ok_head {a : Nat} {rest : List Nat} (h : strings_ok (a :: rest) = true) :
    a ≠ 0 ∨ (rest ++ [0, 0]).getD 0 0 ≠ 0 := by
  cases rest with
  | nil =>
    simp only [strings_ok, decide_eq_true_eq] at h
    exact Or.inl h
  | cons b r =>
    simp only [strings_ok, Bool.and_eq_true, Bool.or_eq_true, decide_eq_true_eq] at h
    simpa using h.1

/-- On a well-formed string section the scan stops exactly at the terminator. -/
theorem read_skip_strings (mem : Mem) (e : Nat) :
    ∀ (strings : List Nat) (p fuel : Nat), strings_ok strings = true →
      holds mem p (strings ++ [0, 0]) → p + strings.length < e →
      strings.length ≤ fuel → read_skip mem e fuel p = p + strings.length := by
  intro strings
  induction strings with
  | nil =>
    intro p fuel _ hm _ _
    have h0 := hm 0 (by simp)
    have h1 := hm 1 (by simp)
    simp only [List.nil_append, List.getD_cons_zero, Nat.add_zero] at h0
    simp only [List.nil_append, List.getD_cons_succ, List.getD_cons_zero] at h1
    cases fuel with
    | zero => rfl
    | succ f => simp [read_skip, h0, h1]
  | cons a rest ih =>
    intro p fuel hok hm he hf
    obtain ⟨f, rfl⟩ : ∃ f, fuel = f + 1 := ⟨fuel - 1, by simp at hf; omega⟩
    rw [List.cons_append] at hm
    have hm' := holds_cons hm
    have hnext : read_u8 mem (p + 1) = (rest ++ [0, 0]).getD 0 0 := by
      simpa using hm'.2 0 (by simp)
    have hcond : p < e ∧ (read_u8 mem p ≠ 0 ∨ read_u8 mem (p + 1) ≠ 0) := by
      refine ⟨by omega, ?_⟩
      rw [hm'.1, hnext]
      exact strings_ok_head hok
    simp only [read_skip, hcond, and_self, if_true]
    rw [ih (p + 1) f (strings_ok_tail hok) hm'.2 (by simp at he; omega) (by simp at hf; omega)]
    simp only [List.length_cons]
    omega

theorem encode_structure_length (s : DmiStructure) :
    (encode_structure s).length = 4 + s.body.length + s.strings.length + 2 := by
  simp [encode_structure]
  omega

/-- The header that the walk decodes at the first byte of an encoded structure. -/
theorem header_at_encode (mem : Mem) (p : Nat) (s : DmiStructure) (tail : List Nat)
    (hm : holds mem p (encode_structure s ++ tail)) :
    (header_at mem p).type = s.type ∧ (header_at mem p).length = s.length := by
  have h0 := hm 0 (by simp [encode_structure])
  have h1 := hm 1 (by simp [encode_structure])
  simp only [encode_structure, List.append_assoc, List.cons_append, List.getD_cons_zero,
    List.getD_cons_succ, Nat.add_zero] at h0 h1
  exact ⟨h0, h1⟩

theorem recordable_encode (mem : Mem) (p : Nat) (s : DmiStructure) (tail : List Nat)
    (hm : holds mem p (encode_structure s ++ tail)) :
    recordable (header_at mem p) = is_regular s := by
  have h := header_at_encode mem p s tail hm
  simp only [recordable, is_regular, h.1, h.2]

/-- After a well-formed structure with a valid length, the walk continues at the first
byte behind its terminator. -/
theorem next_structure_encode (mem : Mem) (e p : Nat) (s : DmiStructure) (tail : List Nat)
    (hwf : well_formed s = true) (hlen : 4 ≤ s.length)
    (hm : holds mem p (encode_structure s ++ tail))
    (he : p + (encode_structure s).length ≤ e) :
    next_structure mem e p = p + (encode_structure s).length := by
  simp only [well_formed, Bool.and_eq_true, decide_eq_true_eq] at hwf
  have hbody := hwf.2 hlen
  have hl := (header_at_encode mem p s tail hm).2
  simp only [header_at] at hl
  have hsplit : encode_structure s ++ tail =
      ([s.type, s.length, s.handle % 256, s.handle / 256 % 256] ++ s.body) ++
        ((s.strings ++ [0, 0]) ++ tail) := by
    simp [encode_structure]
  rw [hsplit] at hm
  have hs := (holds_append (holds_append hm).2).1
  have hlen4 : ([s.type, s.length, s.handle % 256, s.handle / 256 % 256] ++ s.body).length
      = s.length := by
    simp only [List.length_append, List.length_cons, List.length_nil]
    omega
  rw [hlen4] at hs
  rw [encode_structure_length] at he ⊢
  unfold next_structure
  simp only [hl]
  rw [read_skip_strings mem e s.strings (p + s.length) _ hwf.1 hs (by omega) (by omega)]
  omega

/-- The boundaries of the walk over a run of well-formed regular structures are the
first bytes of these structures, and each of them carries a recordable header. -/
theorem boundary_encode (mem : Mem) (e : Nat) :
    ∀ (pre : List DmiStructure) (tail : List Nat) (p : Nat),
      (∀ s ∈ pre, well_formed s = true ∧ is_regular s = true) →
      holds mem p (encode_table pre ++ tail) →
      p + (encode_table pre).length ≤ e →
      boundary mem e p pre.length = p + (encode_table pre).length ∧
      ∀ j, j < pre.length → boundary mem e p j < p + (encode_table pre).length ∧
        recordable (header_at mem (boundary mem e p j)) = true := by
  intro pre
  induction pre with
  | nil =>
    intro tail p _ _ _
    exact ⟨rfl, fun j hj => absurd hj (Nat.not_lt_zero _)⟩
  | cons s pre ih =>
    intro tail p hall hm he
    have hs := hall s (List.mem_cons_self _ _)
    have hreg := hs.2
    simp only [is_regular, Bool.and_eq_true, decide_eq_true_eq] at hreg
    simp only [encode_table, List.length_append] at he ⊢
    simp only [encode_table, List.append_assoc] at hm
    have hnext := next_structure_encode mem e p s (encode_table pre ++ tail) hs.1 hreg.1 hm
      (by omega)
    have hm2 := (holds_append hm).2
    have hrec := ih tail (p + (encode_structure s).length)
      (fun t ht => hall t (List.mem_cons_of_mem _ ht)) hm2 (by omega)
    have hpos : 0 < (encode_structure s).length := by
      rw [encode_structure_length]; omega
    constructor
    · show boundary mem e (next_structure mem e p) pre.length = _
      rw [hnext, hrec.1]
      omega
    · intro j hj
      cases j with
      | zero =>
        refine ⟨by show p < _; omega, ?_⟩
        show recordable (header_at mem p) = true
        rw [recordable_encode mem p s _ hm]
        exact hs.2
      | succ j =>
        show boundary mem e (next_structure mem e p) j < _ ∧
          recordable (header_at mem (boundary mem e (next_structure mem e p) j)) = true
        rw [hnext]
        have := hrec.2 j (by simp at hj; omega)
        exact ⟨by omega, this.2⟩

theorem encode_table_append (xs ys : List DmiStructure) :
    encode_table (xs ++ ys) = encode_table xs ++ encode_table ys := by
  induction xs with
  | nil => rfl
  | cons x xs ih =>
    show encode_structure x ++ encode_table (xs ++ ys) = _
    rw [ih]
    simp only [encode_table, List.append_assoc]

theorem dropWhile_head_false {α : Type} (q : α → Bool) :
    ∀ (l : List α) (b : α) (rest : List α), l.dropWhile q = b :: rest → q b = false := by
  intro l
  induction l with
  | nil => intro b rest h; simp at h
  | cons a l ih =>
    intro b rest h
    by_cases ha : q a = true
    · rw [List.dropWhile_cons_of_pos ha] at h
      exact ih b rest h
    · rw [List.dropWhile_cons_of_neg ha] at h
      simp only [List.cons.injEq] at h
      rw [← h.1]
      simpa using ha

/-- The walk over a synthetic table of well-formed structures records as many headers
as there are structures before the first End-Of-Table or corrupt header. -/
theorem read_headers_encode_table (mem : Mem) (base : Nat) (ss : List DmiStructure)
    (hwf : ∀ s ∈ ss, well_formed s = true) (hm : holds mem base (encode_table ss)) :
    (read_headers mem base (encode_table ss).length).length =
      (ss.takeWhile is_regular).length := by
  have hsplit := List.takeWhile_append_dropWhile is_regular ss
  have henc : encode_table ss =
      encode_table (ss.takeWhile is_regular) ++ encode_table (ss.dropWhile is_regular) := by
    rw [← encode_table_append, hsplit]
  have hpre : ∀ s ∈ ss.takeWhile is_regular, well_formed s = true ∧ is_regular s = true :=
    fun s hs => ⟨hwf s (List.takeWhile_subset is_regular hs), List.mem_takeWhile_imp hs⟩
  have hlen : (encode_table ss).length = (encode_table (ss.takeWhile is_regular)).length +
      (encode_table (ss.dropWhile is_regular)).length := by
    rw [henc, List.length_append]
  have hm2 := hm
  rw [henc] at hm2
  have hb := boundary_encode mem (base + (encode_table ss).length) (ss.takeWhile is_regular)
    (encode_table (ss.dropWhile is_regular)) base hpre hm2 (by omega)
  apply read_headers_length_eq
  · intro j hj
    have := hb.2 j hj
    exact ⟨by omega, this.2⟩
  · intro hlt
    rw [hb.1] at hlt ⊢
    cases hd : ss.dropWhile is_regular with
    | nil =>
      rw [hd] at hlen
      simp only [encode_table, List.length_nil] at hlen
      omega
    | cons b rest =>
      have hbad := dropWhile_head_false is_regular ss b rest hd
      have hm3 := (holds_append hm2).2
      rw [hd] at hm3
      simp only [encode_table] at hm3
      rw [recordable_encode mem _ b _ hm3]
      exact hbad

/-- A zero byte between the last string and the two terminator bytes is not part of a
well-formed string section: the walk finds the terminator one byte early and decodes a
further header (type 0) from the remaining zero byte and the bytes behind it. -/
theorem extra_zero_before_terminator_adds_header :
    (read_headers
      (mem_of 4096 ([1, 27, 0, 0] ++ vendor_structure.body ++ vendor_structure.strings ++
        [0] ++ [0, 0] ++ [127, 4, 0, 0])) 4096 48).map DMIHeader.type = [1, 0] := by
  decide

/-! ## The facade state after `read_smbios_table` -/

theorem read_smbios_table_count (mem : Mem) (st : SMBios) :
    get_structures_count (read_smbios_table mem st) =
      count_structures mem (get_table_base st) (get_table_size st) := rfl

theorem read_smbios_table_headers (mem : Mem) (st : SMBios) :
    (read_smbios_table mem st).headers_list_ =
      st.headers_list_ ++ read_headers mem (get_table_base st) (get_table_size st) := by
  show read_loop mem _ _ _ 0 _ st.headers_list_ = _
  rw [read_loop_acc]
  rfl

theorem read_smbios_table_headers_fresh (mem : Mem) (st : SMBios) (h0 : st.headers_list_ = []) :
    (read_smbios_table mem st).headers_list_ =
      read_headers mem (get_table_base st) (get_table_size st) := by
  rw [read_smbios_table_headers, h0, List.nil_append]

/-! ## The reads of the materializing loop -/

theorem read_skip_reads_lt (mem : Mem) (e : Nat) :
    ∀ fuel cur a, a ∈ read_skip_reads mem e fuel cur → a < read_skip mem e fuel cur + 2 := by
  intro fuel
  induction fuel with
  | zero => intro cur a h; simp [read_skip_reads] at h
  | succ f ih =>
    intro cur a h
    simp only [read_skip_reads] at h
    simp only [read_skip]
    by_cases hc : cur < e
    · simp only [hc, if_true, true_and] at h ⊢
      have hge := read_skip_ge mem e f (cur + 1)
      by_cases hz : read_u8 mem cur ≠ 0 ∨ read_u8 mem (cur + 1) ≠ 0
      · simp only [hz, if_true] at h ⊢
        simp only [List.mem_append, List.mem_singleton] at h
        rcases h with (h | h) | h
        · omega
        · split at h
          · simp at h
          · simp only [List.mem_singleton] at h; omega
        · exact ih (cur + 1) a h
      · simp only [hz, if_false, List.append_nil, List.mem_append, List.mem_singleton] at h ⊢
        rcases h with h | h
        · omega
        · split at h
          · simp at h
          · simp only [List.mem_singleton] at h; omega
    · simp [hc] at h

/-- When the walk meets a header that is not recordable at its `k`-th boundary, the
materializing loop reads nothing behind the header object at that boundary. -/
theorem read_loop_reads_lt (sz : Nat) (hsz : 4 ≤ sz) (mem : Mem) (e n : Nat) :
    ∀ k fuel i cur,
      (∀ j, j < k → recordable (header_at mem (boundary mem e cur j)) = true) →
      recordable (header_at mem (boundary mem e cur k)) = false →
      ∀ a ∈ read_loop_reads sz mem e n fuel i cur, a < boundary mem e cur k + sz := by
  intro k
  induction k with
  | zero =>
    intro fuel i cur _ hbad a ha
    simp only [boundary] at hbad ⊢
    simp only [recordable, Bool.and_eq_false_iff, decide_eq_false_iff_not, not_not] at hbad
    cases fuel with
    | zero => simp [read_loop_reads] at ha
    | succ f =>
      simp only [read_loop_reads] at ha
      split at ha
      · split at ha
        · simp only [List.mem_map, List.mem_range] at ha
          obtain ⟨b, hb, rfl⟩ := ha
          omega
        · split at ha
          · simp only [List.mem_map, List.mem_range] at ha
            obtain ⟨b, hb, rfl⟩ := ha
            omega
          · rename_i h1 h2
            rcases hbad with h | h
            · omega
            · exact absurd h h2
      · simp at ha
  | succ k ih =>
    intro fuel i cur hgood hbad a ha
    have h0 := hgood 0 (Nat.succ_pos k)
    simp only [boundary, recordable, Bool.and_eq_true, decide_eq_true_eq] at h0
    have hnext := next_structure_ge mem e cur
    have hmono := boundary_ge mem e k (next_structure mem e cur)
    show a < boundary mem e (next_structure mem e cur) k + sz
    cases fuel with
    | zero => simp [read_loop_reads] at ha
    | succ f =>
      simp only [read_loop_reads] at ha
      split at ha
      · have h1 : ¬ (header_at mem cur).length < 4 := by omega
        simp only [h1, if_false, h0.2, List.mem_append] at ha
        rcases ha with (ha | ha) | ha
        · simp only [List.mem_map, List.mem_range] at ha
          obtain ⟨b, hb, rfl⟩ := ha
          omega
        · have := read_skip_reads_lt mem e _ _ a ha
          have hn : next_structure mem e cur =
              read_skip mem e (e - (cur + (header_at mem cur).length) + 1)
                (cur + (header_at mem cur).length) + 2 := rfl
          omega
        · exact ih f (i + 1) (next_structure mem e cur)
            (fun j hj => hgood (j + 1) (by omega)) hbad a ha
      · simp at ha

/-! ## The read traces do not depend on the fuel -/

theorem count_skip_reads_fuel (mem : Mem) (e : Nat) :
    ∀ f1 f2 offset, e - offset + 1 ≤ f1 → e - offset + 1 ≤ f2 →
      count_skip_reads mem e f1 offset = count_skip_reads mem e f2 offset := by
  intro f1
  induction f1 with
  | zero => intro f2 offset h1 _; omega
  | succ f ih =>
    intro f2 offset h1 h2
    obtain ⟨g, rfl⟩ : ∃ g, f2 = g + 1 := ⟨f2 - 1, by omega⟩
    simp only [count_skip_reads]
    split
    · rename_i hc
      rw [ih g (offset + 1) (by omega) (by omega)]
    · rfl

theorem read_skip_reads_fuel (mem : Mem) (e : Nat) :
    ∀ f1 f2 cur, e - cur ≤ f1 → e - cur ≤ f2 →
      read_skip_reads mem e f1 cur = read_skip_reads mem e f2 cur := by
  intro f1
  induction f1 with
  | zero =>
    intro f2 cur h1 _
    cases f2 with
    | zero => rfl
    | succ g =>
      have : ¬ cur < e := by omega
      simp only [read_skip_reads, this, if_false]
  | succ f ih =>
    intro f2 cur h1 h2
    by_cases hc : cur < e
    · obtain ⟨g, rfl⟩ : ∃ g, f2 = g + 1 := ⟨f2 - 1, by omega⟩
      simp only [read_skip_reads, hc, if_true]
      rw [ih g (cur + 1) (by omega) (by omega)]
    · cases f2 with
      | zero => simp only [read_skip_reads, hc, if_false]
      | succ g => simp only [read_skip_reads, hc, if_false]

theorem count_loop_reads_fuel (mem : Mem) (e : Nat) :
    ∀ f1 f2 offset, e - offset ≤ f1 → e - offset ≤ f2 →
      count_loop_reads mem e f1 offset = count_loop_reads mem e f2 offset := by
  intro f1
  induction f1 with
  | zero =>
    intro f2 offset h1 _
    cases f2 with
    | zero => rfl
    | succ g =>
      have : ¬ offset < e := by omega
      simp only [count_loop_reads, this, if_false]
  | succ f ih =>
    intro f2 offset h1 h2
    by_cases hc : offset < e
    · obtain ⟨g, rfl⟩ : ∃ g, f2 = g + 1 := ⟨f2 - 1, by omega⟩
      have hn := next_structure_ge mem e offset
      simp only [next_structure, ← count_skip_eq_read_skip] at hn
      simp only [count_loop_reads, hc, if_true]
      rw [ih g _ (by omega) (by omega)]
    · cases f2 with
      | zero => simp only [count_loop_reads, hc, if_false]
      | succ g => simp only [count_loop_reads, hc, if_false]

theorem read_loop_reads_fuel (sz : Nat) (mem : Mem) (e n : Nat) :
    ∀ f1 f2 i cur, n - i ≤ f1 → n - i ≤ f2 →
      read_loop_reads sz mem e n f1 i cur = read_loop_reads sz mem e n f2 i cur := by
  intro f1
  induction f1 with
  | zero =>
    intro f2 i cur h1 _
    cases f2 with
    | zero => rfl
    | succ g =>
      have : ¬ (i < n ∧ cur ≤ e) := by omega
      simp only [read_loop_reads, this, if_false]
  | succ f ih =>
    intro f2 i cur h1 h2
    by_cases hc : i < n ∧ cur ≤ e
    · obtain ⟨g, rfl⟩ : ∃ g, f2 = g + 1 := ⟨f2 - 1, by omega⟩
      simp only [read_loop_reads, hc, and_self, if_true]
      rw [ih g (i + 1) _ (by omega) (by omega)]
    · cases f2 with
      | zero => simp only [read_loop_reads, hc, if_false]
      | succ g => simp only [read_loop_reads, hc, if_false]

/-! ## Properties of the table walk -/

/-- C1: on a table buffer made of well-formed structures, the number of headers that
`read_smbios_table` records equals the number of structures before the first
End-Of-Table header or the first header with `length < 4`; the buffer with one structure
of type 1 (length 27, strings "Vendor" and "Product") followed by an End-Of-Table header
yields exactly one header, of type 1. -/
theorem read_smbios_table_counts_regular_prefix :
    (∀ (mem : Mem) (st : SMBios) (ss : List DmiStructure),
      st.headers_list_ = [] →
      (∀ s ∈ ss, well_formed s = true) →
      holds mem (get_table_base st) (encode_table ss) →
      get_table_size st = (encode_table ss).length →
      (read_smbios_table mem st).headers_list_.length = (ss.takeWhile is_regular).length) ∧
    (read_smbios_table (mem_of 4096 (encode_structure vendor_structure ++ [127, 4, 0, 0]))
      (native_state 4096 47)).headers_list_.map DMIHeader.type = [1] := by
  refine ⟨?_, by decide⟩
  intro mem st ss h0 hwf hm hsize
  rw [read_smbios_table_headers_fresh mem st h0, hsize]
  exact read_headers_encode_table mem (get_table_base st) ss hwf hm

/-- Witness for C1: the scenario table as a list of two structures. -/
theorem read_smbios_table_counts_regular_prefix_witness :
    (read_smbios_table
      (mem_of 4096 (encode_table [vendor_structure, end_of_table_structure]))
      (native_state 4096 49)).headers_list_.length = 1 :=
  read_smbios_table_counts_regular_prefix.1
    (mem_of 4096 (encode_table [vendor_structure, end_of_table_structure]))
    (native_state 4096 49) [vendor_structure, end_of_table_structure] rfl (by decide)
    (holds_mem_of 4096 _ (by decide)) (by decide)

/-- C2: `read_smbios_table` stops at an End-Of-Table header that lies at a structure
boundary: no recorded header has type `EndOfTable`, and every recorded header is located
before that End-Of-Table header. -/
theorem read_smbios_table_stops_at_end_of_table (mem : Mem) (st : SMBios) (k : Nat)
    (h0 : st.headers_list_ = [])
    (hk : (header_at mem (structure_boundary mem st k)).type = EndOfTable) :
    (∀ h ∈ (read_smbios_table mem st).headers_list_, h.type ≠ EndOfTable) ∧
    (∀ h ∈ (read_smbios_table mem st).headers_list_, h.data < structure_boundary mem st k) := by
  rw [read_smbios_table_headers_fresh mem st h0]
  have hall : ∀ h ∈ read_headers mem (get_table_base st) (get_table_size st),
      ∃ j, j < (read_headers mem (get_table_base st) (get_table_size st)).length ∧
        h = header_at mem (structure_boundary mem st j) := by
    intro h hh
    rw [read_headers_eq_map] at hh
    simp only [List.mem_map, List.mem_range] at hh
    obtain ⟨j, hj, rfl⟩ := hh
    exact ⟨j, hj, rfl⟩
  constructor
  · intro h hh
    obtain ⟨j, hj, rfl⟩ := hall h hh
    have hr := read_headers_recordable mem _ _ j hj
    simp only [recordable, Bool.and_eq_true, decide_eq_true_eq] at hr
    exact hr.2
  · intro h hh
    obtain ⟨j, hj, rfl⟩ := hall h hh
    show structure_boundary mem st j < structure_boundary mem st k
    by_cases hjk : j < k
    · exact boundary_strict_mono mem _ _ hjk
    · have hr := read_headers_recordable mem (get_table_base st) (get_table_size st) k
        (by omega)
      simp only [recordable, Bool.and_eq_true, decide_eq_true_eq] at hr
      exact absurd hk hr.2

/-- Witness for C2: the scenario table, whose second structure boundary carries the
End-Of-Table header. -/
theorem read_smbios_table_stops_at_end_of_table_witness :
    (header_at (mem_of 4096 (encode_table [vendor_structure, end_of_table_structure]))
      (structure_boundary
        (mem_of 4096 (encode_table [vendor_structure, end_of_table_structure]))
        (native_state 4096 49) 1)).type = EndOfTable ∧
    ∀ h ∈ (read_smbios_table
        (mem_of 4096 (encode_table [vendor_structure, end_of_table_structure]))
        (native_state 4096 49)).headers_list_,
      h.type ≠ EndOfTable ∧ h.data < 4096 + 43 := by
  have hk : (header_at (mem_of 4096 (encode_table [vendor_structure, end_of_table_structure]))
      (structure_boundary
        (mem_of 4096 (encode_table [vendor_structure, end_of_table_structure]))
        (native_state 4096 49) 1)).type = EndOfTable := by decide
  have hb : structure_boundary
      (mem_of 4096 (encode_table [vendor_structure, end_of_table_structure]))
      (native_state 4096 49) 1 = 4096 + 43 := by decide
  have h := read_smbios_table_stops_at_end_of_table _ (native_state 4096 49) 1 rfl hk
  rw [hb] at h
  exact ⟨hk, fun x hx => ⟨h.1 x hx, h.2 x hx⟩⟩

/-- C3 (counterexample): on a table whose first header declares `length == 2` the headers
list stays empty, but the counting pass that `read_smbios_table` runs first does not
stop there: it stores a structure count of 2, and after the length byte of the first
header (offset 1) and its scan (offsets 2 and 3) it reads the byte at offset 5 as the
length of a further header and scans behind it (offsets 8 and 9). -/
theorem corrupt_first_header_is_walked_past :
    (header_at (mem_of 4096 corrupt_table) 4096).length = 2 ∧
    (read_smbios_table (mem_of 4096 corrupt_table) (native_state 4096 10)).headers_list_ = [] ∧
    get_structures_count
      (read_smbios_table (mem_of 4096 corrupt_table) (native_state 4096 10)) = 2 ∧
    count_smbios_structures_reads (mem_of 4096 corrupt_table) (native_state 4096 10) =
      [4096 + 1, 4096 + 2, 4096 + 3, 4096 + 5, 4096 + 8, 4096 + 9] := by
  decide

/-- C3 (amended): when the materializing loop of `read_smbios_table` meets, at the `k`-th
boundary of its walk, a header whose length is below 4, it stops there: the headers list
is exactly the `k` headers collected before it, every recorded header has a length of
at least 4, and the loop reads nothing behind the header object at that boundary
(`sizeof_header` is `sizeof(DMIHeader)`). -/
theorem read_smbios_table_stops_at_corrupt_length (sizeof_header : Nat) (mem : Mem)
    (st : SMBios) (k : Nat) (hsz : 4 ≤ sizeof_header)
    (h0 : st.headers_list_ = [])
    (hk : structure_boundary mem st k < table_end st)
    (hgood : ∀ j, j < k → recordable (header_at mem (structure_boundary mem st j)) = true)
    (hbad : (header_at mem (structure_boundary mem st k)).length < 4) :
    (read_smbios_table mem st).headers_list_ =
      (List.range k).map (fun j => header_at mem (structure_boundary mem st j)) ∧
    (∀ h ∈ (read_smbios_table mem st).headers_list_, 4 ≤ h.length) ∧
    (∀ a ∈ materialize_reads sizeof_header mem st,
      a < structure_boundary mem st k + sizeof_header) := by
  have hrec : recordable (header_at mem (structure_boundary mem st k)) = false := by
    simp only [recordable, Bool.and_eq_false_iff, decide_eq_false_iff_not]
    exact Or.inl (by omega)
  have hlen : (read_headers mem (get_table_base st) (get_table_size st)).length = k := by
    apply read_headers_length_eq
    · intro j hj
      have := boundary_strict_mono mem (table_end st) (get_table_base st) hj
      exact ⟨Nat.lt_trans this hk, hgood j hj⟩
    · intro _
      exact hrec
  rw [read_smbios_table_headers_fresh mem st h0]
  refine ⟨?_, ?_, ?_⟩
  · have := read_headers_eq_map mem (get_table_base st) (get_table_size st)
    rw [hlen] at this
    exact this
  · intro h hh
    rw [read_headers_eq_map] at hh
    simp only [List.mem_map, List.mem_range] at hh
    obtain ⟨j, hj, rfl⟩ := hh
    have hr := read_headers_recordable mem _ _ j hj
    simp only [recordable, Bool.and_eq_true, decide_eq_true_eq] at hr
    exact hr.1
  · exact read_loop_reads_lt sizeof_header hsz mem (table_end st) _ k _ 0 (get_table_base st)
      hgood hrec

/-- Witness for C3: the table whose first header declares `length == 2`. -/
theorem read_smbios_table_stops_at_corrupt_length_witness :
    (read_smbios_table (mem_of 4096 corrupt_table) (native_state 4096 10)).headers_list_ = [] ∧
    ∀ a ∈ materialize_reads 16 (mem_of 4096 corrupt_table) (native_state 4096 10),
      a < 4096 + 16 := by
  have h := read_smbios_table_stops_at_corrupt_length 16 (mem_of 4096 corrupt_table)
    (native_state 4096 10) 0 (by decide) rfl (by decide)
    (fun j hj => absurd hj (Nat.not_lt_zero j)) (by decide)
  exact ⟨h.1, h.2.2⟩

/-- C4 (failing input): on the five-byte table `truncated_table` the counting pass reads
the addresses `base + 5` and `base + 6`, which lie behind the table: the 16-bit load of
its inner loop is evaluated before `offset < end_table` is tested. -/
theorem count_smbios_structures_reads_past_table_end :
    get_table_base (native_state 4096 5) = 4096 ∧ get_table_size (native_state 4096 5) = 5 ∧
    count_smbios_structures_reads (mem_of 4096 truncated_table) (native_state 4096 5) =
      [4096 + 1, 4096 + 4, 4096 + 5, 4096 + 5, 4096 + 6] := by
  decide

/-- C5 (counterexample): on the scenario table (one structure, then the End-Of-Table
one) the counting pass stores 2 while the headers list holds 1 header. -/
theorem count_exceeds_headers_on_terminated_table :
    get_structures_count (read_smbios_table
      (mem_of 4096 (encode_table [vendor_structure, end_of_table_structure]))
      (native_state 4096 49)) = 2 ∧
    (read_smbios_table
      (mem_of 4096 (encode_table [vendor_structure, end_of_table_structure]))
      (native_state 4096 49)).headers_list_.length = 1 := by
  decide

/-- C5 (amended): the number of headers that `read_smbios_table` records is at most the
count that `count_smbios_structures` stores, and the two are equal exactly when every
boundary that the counting pass counted carries a header with a length of at least 4
that is not the End-Of-Table sentinel. -/
theorem headers_le_count_and_equal_iff (mem : Mem) (st : SMBios)
    (h0 : st.headers_list_ = []) :
    (read_smbios_table mem st).headers_list_.length ≤
      get_structures_count (read_smbios_table mem st) ∧
    ((read_smbios_table mem st).headers_list_.length =
        get_structures_count (read_smbios_table mem st) ↔
      ∀ j, j < get_structures_count (read_smbios_table mem st) →
        recordable (header_at mem (structure_boundary mem st j)) = true) := by
  rw [read_smbios_table_headers_fresh mem st h0, read_smbios_table_count]
  have hle := read_headers_length_le mem (get_table_base st) (get_table_size st)
  refine ⟨hle, ?_, ?_⟩
  · intro heq j hj
    exact read_headers_recordable mem _ _ j (by omega)
  · intro hall
    by_contra hne
    have hlt : (read_headers mem (get_table_base st) (get_table_size st)).length <
        count_structures mem (get_table_base st) (get_table_size st) := by omega
    have h1 := read_headers_stop mem _ _ hlt
    have h2 := hall _ hlt
    simp only [structure_boundary, table_end] at h2
    rw [h1] at h2
    exact absurd h2 (by decide)

/-- Witness for C5: a table of two regular structures, where both numbers are 2. -/
theorem headers_le_count_and_equal_iff_witness :
    (read_smbios_table (mem_of 4096 (encode_table [vendor_structure, vendor_structure]))
      (native_state 4096 86)).headers_list_.length ≤ 2 :=
  (headers_le_count_and_equal_iff
    (mem_of 4096 (encode_table [vendor_structure, vendor_structure]))
    (native_state 4096 86) rfl).1

/-! ## The anchor scan -/

theorem scan_step_checksum_validated (devmem : Mem) (it : Nat) (st : SMBios) :
    (scan_step devmem it st).checksum_validated_ = st.checksum_validated_ := by
  unfold scan_step
  split <;> split <;> rfl

theorem scan_loop_checksum_validated (devmem : Mem) (size : Nat) :
    ∀ fuel it st c,
      (scan_loop devmem size fuel it (st, c)).1.checksum_validated_ = st.checksum_validated_ := by
  intro fuel
  induction fuel with
  | zero => intro it st c; rfl
  | succ f ih =>
    intro it st c
    simp only [scan_loop]
    split
    · rw [ih, scan_step_checksum_validated]
    · rfl

/-- The scan never writes `checksum_validated_`. -/
theorem scan_physical_memory_checksum_validated (devmem : Mem) (size : Nat) (st : SMBios) :
    (scan_physical_memory devmem size st).1.checksum_validated_ = st.checksum_validated_ :=
  scan_loop_checksum_validated devmem size size 0 st 0

/-- The fuel `size` is sufficient for the scanning loop: more fuel does not change its
result. -/
theorem scan_loop_fuel (devmem : Mem) (size : Nat) :
    ∀ f1 f2 it r, size - it ≤ f1 → size - it ≤ f2 →
      scan_loop devmem size f1 it r = scan_loop devmem size f2 it r := by
  intro f1
  induction f1 with
  | zero =>
    intro f2 it r h1 _
    obtain ⟨st, c⟩ := r
    cases f2 with
    | zero => rfl
    | succ g =>
      have : ¬ 16 < size - it := by omega
      simp only [scan_loop, this, if_false]
  | succ f ih =>
    intro f2 it r h1 h2
    obtain ⟨st, c⟩ := r
    by_cases hc : 16 < size - it
    · obtain ⟨g, rfl⟩ : ∃ g, f2 = g + 1 := ⟨f2 - 1, by omega⟩
      simp only [scan_loop, hc, if_true]
      exact ih g _ _ (by omega) (by omega)
    · cases f2 with
      | zero => simp only [scan_loop, hc, if_false]
      | succ g => simp only [scan_loop, hc, if_false]

theorem scan_step_none (devmem : Mem) (it : Nat) (st : SMBios)
    (h : detect_smbios_anchor devmem it = SMBiosAnchorType.None) :
    scan_step devmem it st = st := by
  simp [scan_step, h]

/-- The buffer after a step at an offset where an anchor is detected. -/
theorem scan_step_match (devmem : Mem) (it : Nat) (st : SMBios)
    (h : detect_smbios_anchor devmem it ≠ SMBiosAnchorType.None) :
    (scan_step devmem it st).entry_point_buffer_ =
      copy_bytes devmem it
        (if detect_smbios_anchor devmem it = SMBiosAnchorType.SMBios32 then
          smbios32_header_size else smbios64_header_size) := by
  cases hd : detect_smbios_anchor devmem it with
  | None => exact absurd hd h
  | SMBios32 => simp [scan_step, hd]
  | SMBios64 => simp [scan_step, hd]

/-- Scanning a part of the dump without any anchor leaves the state as it is. -/
theorem scan_loop_none (devmem : Mem) (size : Nat) :
    ∀ fuel it st c,
      (∀ j, 16 < size - (it + 16 * j) →
        detect_smbios_anchor devmem (it + 16 * j) = SMBiosAnchorType.None) →
      (scan_loop devmem size fuel it (st, c)).1 = st := by
  intro fuel
  induction fuel with
  | zero => intro it st c _; rfl
  | succ f ih =>
    intro it st c h
    simp only [scan_loop]
    split
    · rename_i hc
      have h0 := h 0 (by simpa using hc)
      simp only [Nat.mul_zero, Nat.add_zero] at h0
      rw [scan_step_none devmem it st h0]
      apply ih
      intro j hj
      have := h (j + 1)
        (by rw [Nat.mul_add, Nat.mul_one, ← Nat.add_assoc, Nat.add_right_comm]; exact hj)
      rw [Nat.mul_add, Nat.mul_one, ← Nat.add_assoc, Nat.add_right_comm] at this
      exact this
    · rfl

/-- The buffer after the scan holds the bytes at the last scanned offset at which an
anchor is detected. -/
theorem scan_loop_last_match (devmem : Mem) (size : Nat) :
    ∀ j fuel it st c, j < fuel → 16 < size - (it + 16 * j) →
      detect_smbios_anchor devmem (it + 16 * j) ≠ SMBiosAnchorType.None →
      (∀ i, j < i → 16 < size - (it + 16 * i) →
        detect_smbios_anchor devmem (it + 16 * i) = SMBiosAnchorType.None) →
      (scan_loop devmem size fuel it (st, c)).1.entry_point_buffer_ =
        copy_bytes devmem (it + 16 * j)
          (if detect_smbios_anchor devmem (it + 16 * j) = SMBiosAnchorType.SMBios32 then
            smbios32_header_size else smbios64_header_size) := by
  intro j
  induction j with
  | zero =>
    intro fuel it st c hf hs hd hlater
    obtain ⟨f, rfl⟩ : ∃ f, fuel = f + 1 := ⟨fuel - 1, by omega⟩
    simp only [Nat.mul_zero, Nat.add_zero] at hs hd ⊢
    simp only [scan_loop, hs, if_true]
    rw [scan_loop_none devmem size f (it + 16) _ _ ?_]
    · exact scan_step_match devmem it st hd
    · intro i hi
      have := hlater (i + 1) (Nat.succ_pos i)
        (by rw [Nat.mul_add, Nat.mul_one, ← Nat.add_assoc, Nat.add_right_comm]; exact hi)
      rw [Nat.mul_add, Nat.mul_one, ← Nat.add_assoc, Nat.add_right_comm] at this
      exact this
  | succ j ih =>
    intro fuel it st c hf hs hd hlater
    obtain ⟨f, rfl⟩ : ∃ f, fuel = f + 1 := ⟨fuel - 1, by omega⟩
    have hit : 16 < size - it := by omega
    have he : it + 16 * (j + 1) = it + 16 + 16 * j := by omega
    simp only [scan_loop, hit, if_true]
    rw [he] at hs hd ⊢
    apply ih f (it + 16) _ _ (by omega) hs hd
    intro i hi hsi
    have he2 : it + 16 + 16 * i = it + 16 * (i + 1) := by omega
    rw [he2] at hsi ⊢
    exact hlater (i + 1) (by omega) hsi

/-! ## Properties of the anchor scan and of the facade -/

/-- C6 (failing input): the scan records the entry point `entry_point32_sample`, whose
bytes sum to 0 modulo 256 over its declared length, and leaves `checksum_validated_`
at `false`; started with the flag at `true`, it records the damaged entry point, whose
bytes sum to 1, and leaves the flag at `true`.  The local `checksum` it prints is the sum
of the bytes at the scanned offsets. -/
theorem scan_physical_memory_ignores_checksum :
    ((scan_physical_memory (mem_of 0 dump_one_anchor) 48 (native_state 0 0)).1.smbios_entry32_
        = true ∧
      (scan_physical_memory (mem_of 0 dump_one_anchor) 48
        (native_state 0 0)).1.entry_point_buffer_ = entry_point32_sample ∧
      entry_point_sum entry_point32_sample 5 = 0 ∧
      (scan_physical_memory (mem_of 0 dump_one_anchor) 48
        (native_state 0 0)).1.checksum_validated_ = false ∧
      (scan_physical_memory (mem_of 0 dump_one_anchor) 48 (native_state 0 0)).2 = 190) ∧
    ((scan_physical_memory (mem_of 0 dump_damaged_anchor) 48
        { native_state 0 0 with checksum_validated_ := true }).1.entry_point_buffer_
        = entry_point32_damaged ∧
      entry_point_sum entry_point32_damaged 5 = 1 ∧
      (scan_physical_memory (mem_of 0 dump_damaged_anchor) 48
        { native_state 0 0 with checksum_validated_ := true }).1.checksum_validated_ = true) := by
  decide

/-- C7 (counterexample): with no native table and both entry points present and
checksum-valid, `get_table_base` and `get_table_size` return the fields of the 32-bit
entry point, which differ from the 64-bit `structure_table_address` and
`max_structure_size`. -/
theorem table_base_and_size_prefer_entry32 :
    get_table_base both_entries_state = 4096 ∧
    both_entries_state.entry64.structure_table_address = 14071959063970911 ∧
    get_table_size both_entries_state = 49 ∧
    both_entries_state.entry64.max_structure_size = 0 := by
  decide

/-- C7 (amended): with no native table and both entry points present and checksum-valid,
`get_table_base` returns the 32-bit `structure_table_address` and `get_table_size` the
32-bit `structure_table_length`; `extract_dmi_version` sets the version from the 64-bit
entry point. -/
theorem entry32_locates_table_entry64_gives_version (st : SMBios)
    (hbase : st.native_impl_.table_base = 0) (hsize : st.native_impl_.table_size = 0)
    (h32 : st.smbios_entry32_ = true) (h64 : st.smbios_entry64_ = true)
    (hsum : st.checksum_validated_ = true) :
    get_table_base st = st.entry32.structure_table_address ∧
    get_table_size st = st.entry32.structure_table_length ∧
    (extract_dmi_version st).major_version_ = st.entry64.major_version ∧
    (extract_dmi_version st).minor_version_ = st.entry64.minor_version := by
  refine ⟨?_, ?_, ?_, ?_⟩
  · simp [get_table_base, hbase, h32, hsum]
  · simp [get_table_size, hsize, h32, hsum]
  · simp [extract_dmi_version, h32, h64, hsum, SMBios.entry64]
  · simp [extract_dmi_version, h32, h64, hsum, SMBios.entry64]

/-- Witness for C7: the state `both_entries_state`. -/
theorem entry32_locates_table_entry64_gives_version_witness :
    get_table_base both_entries_state = both_entries_state.entry32.structure_table_address ∧
    get_table_size both_entries_state = both_entries_state.entry32.structure_table_length ∧
    (extract_dmi_version both_entries_state).major_version_ =
      both_entries_state.entry64.major_version ∧
    (extract_dmi_version both_entries_state).minor_version_ =
      both_entries_state.entry64.minor_version :=
  entry32_locates_table_entry64_gives_version both_entries_state rfl rfl rfl rfl rfl

/-- C8 (counterexample): in a dump with a 32-bit anchor at offset 0 and another one at
offset 32, the recorded entry-point bytes after the scan are those of the second
anchor, not those of the first. -/
theorem later_anchor_replaces_first_match :
    detect_smbios_anchor (mem_of 0 dump_two_anchors) 0 = SMBiosAnchorType.SMBios32 ∧
    detect_smbios_anchor (mem_of 0 dump_two_anchors) 32 = SMBiosAnchorType.SMBios32 ∧
    copy_bytes (mem_of 0 dump_two_anchors) 0 smbios32_header_size = entry_point32_sample ∧
    (scan_physical_memory (mem_of 0 dump_two_anchors) 64
      (native_state 0 0)).1.entry_point_buffer_ = entry_point32_other ∧
    entry_point32_other ≠ entry_point32_sample := by
  decide

/-- C8 (amended): `scan_physical_memory` keeps the entry point of the last match: the
recorded entry-point bytes are those at the last scanned offset at which an anchor of
either kind is detected; every later match replaces the bytes of the earlier ones. -/
theorem scan_physical_memory_keeps_last_match (devmem : Mem) (size : Nat) (st : SMBios)
    (o : Nat) (ho : o % 16 = 0) (hs : 16 < size - o)
    (hd : detect_smbios_anchor devmem o ≠ SMBiosAnchorType.None)
    (hlater : ∀ o2, o < o2 → o2 % 16 = 0 → 16 < size - o2 →
      detect_smbios_anchor devmem o2 = SMBiosAnchorType.None) :
    (scan_physical_memory devmem size st).1.entry_point_buffer_ =
      copy_bytes devmem o
        (if detect_smbios_anchor devmem o = SMBiosAnchorType.SMBios32 then
          smbios32_header_size else smbios64_header_size) := by
  have hoj : 0 + 16 * (o / 16) = o := by omega
  have h := scan_loop_last_match devmem size (o / 16) size 0 st 0 (by omega)
    (by rw [hoj]; exact hs) (by rw [hoj]; exact hd)
    (by
      intro i hi hsi
      exact hlater (0 + 16 * i) (by omega) (by omega) hsi)
  rw [hoj] at h
  exact h

/-- Witness for C8: the dump with two anchors, whose last match is at offset 32. -/
theorem scan_physical_memory_keeps_last_match_witness :
    (scan_physical_memory (mem_of 0 dump_two_anchors) 64
      (native_state 0 0)).1.entry_point_buffer_ =
      copy_bytes (mem_of 0 dump_two_anchors) 32 smbios32_header_size :=
  scan_physical_memory_keeps_last_match (mem_of 0 dump_two_anchors) 64 (native_state 0 0) 32
    (by decide) (by decide) (by decide)
    (by
      intro o2 h1 h2 h3
      exfalso
      omega)

/-- C9 (counterexample): a facade without a native version and without any entry point
returns `"0.0"`, the same string that it returns when the native source supplies the
version 0.0: the text of a version number, not a marker for an unknown version. -/
theorem unknown_version_reads_as_version_number :
    (native_state 0 0).native_impl_.major_version = size_t_max ∧
    (native_state 0 0).smbios_entry32_ = false ∧
    (native_state 0 0).smbios_entry64_ = false ∧
    get_smbios_version (native_state 0 0) = "0.0" ∧
    get_smbios_version native_version_zero_state = "0.0" := by
  decide

/-- C9 (amended): `get_smbios_version` returns `<major>.<minor>` built from the version of
the native source whenever neither of its two values is the `size_t` maximum;
otherwise, also when no validated entry point supplied a version, it returns
`<major>.<minor>` built from the current values of `major_version_` and
`minor_version_`.  The returned string is always the text of a version number. -/
theorem get_smbios_version_precedence (st : SMBios) :
    (st.native_impl_.major_version ≠ size_t_max →
      st.native_impl_.minor_version ≠ size_t_max →
      get_smbios_version st =
        version_string st.native_impl_.major_version st.native_impl_.minor_version) ∧
    ((st.native_impl_.major_version = size_t_max ∨
        st.native_impl_.minor_version = size_t_max) →
      get_smbios_version st = version_string st.major_version_ st.minor_version_) ∧
    is_version_string (get_smbios_version st) := by
  refine ⟨?_, ?_, ?_⟩
  · intro h1 h2
    simp only [get_smbios_version]
    rw [if_pos ⟨fun h => h1 h.symm, fun h => h2 h.symm⟩]
  · intro h
    simp only [get_smbios_version]
    rw [if_neg]
    intro hc
    rcases h with h | h
    · exact hc.1 h.symm
    · exact hc.2 h.symm
  · simp only [get_smbios_version]
    split
    · exact ⟨_, _, rfl⟩
    · exact ⟨_, _, rfl⟩

/-- Witness for C9: a native source that supplies the version 0.0, and a facade without
a native version. -/
theorem get_smbios_version_precedence_witness :
    get_smbios_version native_version_zero_state = version_string 0 0 ∧
    get_smbios_version (native_state 0 0) = version_string 0 0 :=
  ⟨(get_smbios_version_precedence native_version_zero_state).1 (by decide) (by decide),
   (get_smbios_version_precedence (native_state 0 0)).2.1 (Or.inl rfl)⟩

/-- C10: for the empty table (the native source gives a null base and size 0, and no
checksum-valid entry point is present) `get_table_base` returns null, `get_table_size`
returns 0, and `read_smbios_table` reads no byte, stores the structure count 0 and
leaves the headers list empty. -/
theorem empty_table_yields_nothing (sizeof_header : Nat) (mem : Mem) (st : SMBios)
    (hbase : st.native_impl_.table_base = 0) (hsize : st.native_impl_.table_size = 0)
    (h32 : ¬ (st.smbios_entry32_ = true ∧ st.checksum_validated_ = true))
    (h64 : ¬ (st.smbios_entry64_ = true ∧ st.checksum_validated_ = true))
    (h0 : st.headers_list_ = []) :
    get_table_base st = 0 ∧ get_table_size st = 0 ∧
    read_smbios_table_reads sizeof_header mem st = [] ∧
    get_structures_count (read_smbios_table mem st) = 0 ∧
    (read_smbios_table mem st).headers_list_ = [] := by
  have hb : get_table_base st = 0 := by
    simp only [get_table_base, hbase, ne_eq, not_true_eq_false, if_false, h32, h64]
  have hs : get_table_size st = 0 := by
    simp only [get_table_size, hsize, ne_eq, not_true_eq_false, if_false, h32, h64]
  refine ⟨hb, hs, ?_, ?_, ?_⟩
  · simp only [read_smbios_table_reads, hb, hs]
    rfl
  · rw [read_smbios_table_count, hb, hs]
    rfl
  · rw [read_smbios_table_headers_fresh mem st h0, hb, hs]
    rfl

/-- Witness for C10: a fresh facade without native table, over any memory contents. -/
theorem empty_table_yields_nothing_witness :
    read_smbios_table_reads 16 (mem_of 4096 corrupt_table) (native_state 0 0) = [] ∧
    get_structures_count (read_smbios_table (mem_of 4096 corrupt_table) (native_state 0 0)) = 0 ∧
    (read_smbios_table (mem_of 4096 corrupt_table) (native_state 0 0)).headers_list_ = [] :=
  (empty_table_yields_nothing 16 (mem_of 4096 corrupt_table) (native_state 0 0) rfl rfl
    (by decide) (by decide) rfl).2.2

/-! ## The layout of the recorded headers -/

/-- The `i`-th recorded header is the header at the `i`-th structure boundary. -/
theorem read_headers_getElem_some (mem : Mem) (base size i : Nat) (h : DMIHeader)
    (hi : (read_headers mem base size)[i]? = some h) :
    i < (read_headers mem base size).length ∧
      h = header_at mem (boundary mem (base + size) base i) := by
  have hlt : i < (read_headers mem base size).length := by
    by_contra hc
    rw [List.getElem?_eq_none (by omega)] at hi
    exact absurd hi (by simp)
  refine ⟨hlt, ?_⟩
  rw [read_headers_eq_map] at hi
  rw [List.getElem?_map, List.getElem?_range hlt] at hi
  simpa using hi.symm

/-- Every boundary of a recorded header lies inside the table. -/
theorem read_headers_boundary_lt (mem : Mem) (base size i : Nat)
    (hi : i < (read_headers mem base size).length) :
    boundary mem (base + size) base i < base + size :=
  count_structures_lt mem base size i
    (Nat.lt_of_lt_of_le hi (read_headers_length_le mem base size))

/-- The scan passes no pair of zero bytes. -/
theorem read_skip_before (mem : Mem) (e : Nat) :
    ∀ fuel cur q, cur ≤ q → q < read_skip mem e fuel cur → ¬ double_zero mem q := by
  intro fuel
  induction fuel with
  | zero => intro cur q h1 h2; simp only [read_skip] at h2; omega
  | succ f ih =>
    intro cur q h1 h2
    simp only [read_skip] at h2
    split at h2
    · rename_i hc
      by_cases hq : q = cur
      · subst hq
        intro hz
        rcases hc.2 with h | h
        · exact h hz.1
        · exact h hz.2
      · exact ih (cur + 1) q (by omega) h2
    · omega

/-- The walk moves past the fixed portion and the two terminator bytes. -/
theorem next_structure_ge_length (mem : Mem) (e p : Nat) :
    p + read_u8 mem (p + 1) + 2 ≤ next_structure mem e p := by
  unfold next_structure
  have := read_skip_ge mem e (e - (p + read_u8 mem (p + 1)) + 1) (p + read_u8 mem (p + 1))
  simp only
  omega

/-- The bound on the count: every counted boundary lies inside the table and the
boundaries are at least two bytes apart. -/
theorem count_structures_le (mem : Mem) (base size : Nat) :
    count_structures mem base size ≤ (size + 1) / 2 := by
  by_cases hc : count_structures mem base size = 0
  · rw [hc]; exact Nat.zero_le _
  · have h1 := count_structures_lt mem base size (count_structures mem base size - 1)
      (by omega)
    have h2 := boundary_ge mem (base + size) (count_structures mem base size - 1) base
    omega

/-- C11: for any two consecutive headers that `read_smbios_table` records, the second one
starts at `p + 2`, where `p` is the smallest address not below the end of the fixed
portion of the first one (`data + length`) at which two consecutive zero bytes occur; for
a structure without trailing strings the next header is at `data + length + 2`. -/
theorem consecutive_headers_are_separated_by_first_terminator (mem : Mem) (st : SMBios)
    (i : Nat) (h1 h2 : DMIHeader) (h0 : st.headers_list_ = [])
    (hi : (read_smbios_table mem st).headers_list_[i]? = some h1)
    (hj : (read_smbios_table mem st).headers_list_[i + 1]? = some h2) :
    (∃ p, h2.data = p + 2 ∧ h1.data + h1.length ≤ p ∧ double_zero mem p ∧
      ∀ q, h1.data + h1.length ≤ q → q < p → ¬ double_zero mem q) ∧
    (double_zero mem (h1.data + h1.length) → h2.data = h1.data + h1.length + 2) := by
  rw [read_smbios_table_headers_fresh mem st h0] at hi hj
  obtain ⟨_, rfl⟩ := read_headers_getElem_some mem _ _ i h1 hi
  obtain ⟨hlen, rfl⟩ := read_headers_getElem_some mem _ _ (i + 1) h2 hj
  have hin := read_headers_boundary_lt mem _ _ (i + 1) hlen
  rw [boundary_succ] at hin
  simp only [header_at, boundary_succ]
  generalize boundary mem (get_table_base st + get_table_size st) (get_table_base st) i = b
    at hin ⊢
  have hnext : next_structure mem (get_table_base st + get_table_size st) b =
      read_skip mem (get_table_base st + get_table_size st)
        (get_table_base st + get_table_size st - (b + read_u8 mem (b + 1)) + 1)
        (b + read_u8 mem (b + 1)) + 2 := rfl
  rw [hnext] at hin ⊢
  have hge := read_skip_ge mem (get_table_base st + get_table_size st)
    (get_table_base st + get_table_size st - (b + read_u8 mem (b + 1)) + 1)
    (b + read_u8 mem (b + 1))
  have hstop := read_skip_stop mem (get_table_base st + get_table_size st)
    (get_table_base st + get_table_size st - (b + read_u8 mem (b + 1)) + 1)
    (b + read_u8 mem (b + 1)) (by omega)
  have hbefore := read_skip_before mem (get_table_base st + get_table_size st)
    (get_table_base st + get_table_size st - (b + read_u8 mem (b + 1)) + 1)
    (b + read_u8 mem (b + 1))
  generalize read_skip mem (get_table_base st + get_table_size st)
    (get_table_base st + get_table_size st - (b + read_u8 mem (b + 1)) + 1)
    (b + read_u8 mem (b + 1)) = r at hin hge hstop hbefore ⊢
  have hz : double_zero mem r := by
    rcases hstop with h | h
    · omega
    · exact h
  refine ⟨⟨r, rfl, hge, hz, fun q hq1 hq2 => hbefore q hq1 hq2⟩, ?_⟩
  intro hd
  have : ¬ b + read_u8 mem (b + 1) < r := fun hlt => hbefore _ (Nat.le_refl _) hlt hd
  omega

/-- Witness for C11: the table of two `vendor_structure`s; the terminator of the first
one is at offset 41, the second header at offset 43. -/
theorem consecutive_headers_are_separated_by_first_terminator_witness :
    ∃ p, 4096 + 43 = p + 2 ∧ 4096 + 27 ≤ p ∧
      double_zero (mem_of 4096 (encode_table [vendor_structure, vendor_structure])) p ∧
      ∀ q, 4096 + 27 ≤ q → q < p →
        ¬ double_zero (mem_of 4096 (encode_table [vendor_structure, vendor_structure])) q :=
  (consecutive_headers_are_separated_by_first_terminator
    (mem_of 4096 (encode_table [vendor_structure, vendor_structure])) (native_state 4096 86) 0
    { type := 1, length := 27, handle := 0, data := 4096 }
    { type := 1, length := 27, handle := 0, data := 4096 + 43 } rfl
    (by decide) (by decide)).1

/-- C14: the headers that `read_smbios_table` records lie at strictly increasing
addresses, and each of them starts inside the table: at or after the table base and
strictly before the table end. -/
theorem recorded_headers_increase_inside_table (mem : Mem) (st : SMBios)
    (h0 : st.headers_list_ = []) :
    (∀ (i j : Nat) (h1 h2 : DMIHeader), i < j →
      (read_smbios_table mem st).headers_list_[i]? = some h1 →
      (read_smbios_table mem st).headers_list_[j]? = some h2 → h1.data < h2.data) ∧
    (∀ h ∈ (read_smbios_table mem st).headers_list_,
      get_table_base st ≤ h.data ∧ h.data < get_table_base st + get_table_size st) := by
  rw [read_smbios_table_headers_fresh mem st h0]
  constructor
  · intro i j h1 h2 hij hi hj
    obtain ⟨_, rfl⟩ := read_headers_getElem_some mem _ _ i h1 hi
    obtain ⟨_, rfl⟩ := read_headers_getElem_some mem _ _ j h2 hj
    exact boundary_strict_mono mem _ _ hij
  · intro h hh
    obtain ⟨i, hi⟩ := List.getElem?_of_mem hh
    obtain ⟨hlen, rfl⟩ := read_headers_getElem_some mem _ _ i h hi
    have h1 := read_headers_boundary_lt mem _ _ i hlen
    have h2 := boundary_ge mem (get_table_base st + get_table_size st) i (get_table_base st)
    exact ⟨by show get_table_base st ≤ boundary _ _ _ i; omega, h1⟩

/-- Witness for C14: the table of two `vendor_structure`s, whose recorded headers lie
at the offsets 0 and 43 of a table of 86 bytes. -/
theorem recorded_headers_increase_inside_table_witness :
    4096 < 4096 + 43 ∧
    (get_table_base (native_state 4096 86) ≤ 4096 + 43 ∧
      4096 + 43 < get_table_base (native_state 4096 86) + get_table_size (native_state 4096 86)) :=
  ⟨(recorded_headers_increase_inside_table
      (mem_of 4096 (encode_table [vendor_structure, vendor_structure]))
      (native_state 4096 86) rfl).1 0 1
      { type := 1, length := 27, handle := 0, data := 4096 }
      { type := 1, length := 27, handle := 0, data := 4096 + 43 }
      (by decide) (by decide) (by decide),
   (recorded_headers_increase_inside_table
      (mem_of 4096 (encode_table [vendor_structure, vendor_structure]))
      (native_state 4096 86) rfl).2
      { type := 1, length := 27, handle := 0, data := 4096 + 43 } (by decide)⟩

/-- C15 (counterexample): the six-byte table whose only header declares a length of 200
yields one recorded header, and its fixed portion ends behind the table: `data + length`
is `4096 + 200`, the table end is `4096 + 6`. -/
theorem recorded_header_overruns_table :
    (read_smbios_table (mem_of 4096 overlong_table) (native_state 4096 6)).headers_list_ =
      [{ type := 1, length := 200, handle := 0, data := 4096 }] ∧
    get_table_base (native_state 4096 6) + get_table_size (native_state 4096 6) = 4096 + 6 := by
  decide

/-- C15 (amended): a header that `read_smbios_table` records has its whole fixed portion,
and the two terminator bytes, in front of the next structure boundary of the walk.  So
the fixed portion lies inside the table window whenever that boundary is not behind the
table end, in particular whenever another recorded header follows. -/
theorem fixed_portion_inside_when_followed (mem : Mem) (st : SMBios)
    (i : Nat) (h1 : DMIHeader) (h0 : st.headers_list_ = [])
    (hi : (read_smbios_table mem st).headers_list_[i]? = some h1) :
    (structure_boundary mem st (i + 1) ≤ table_end st →
      h1.data + h1.length + 2 ≤ table_end st) ∧
    (∀ h2, (read_smbios_table mem st).headers_list_[i + 1]? = some h2 →
      h1.data + h1.length + 2 ≤ h2.data ∧ h2.data < table_end st) := by
  rw [read_smbios_table_headers_fresh mem st h0] at hi ⊢
  obtain ⟨_, rfl⟩ := read_headers_getElem_some mem _ _ i h1 hi
  have hge := next_structure_ge_length mem (get_table_base st + get_table_size st)
    (boundary mem (get_table_base st + get_table_size st) (get_table_base st) i)
  constructor
  · intro hb
    simp only [structure_boundary, table_end, boundary_succ] at hb ⊢
    simp only [header_at]
    omega
  · intro h2 hj
    obtain ⟨hlen, rfl⟩ := read_headers_getElem_some mem _ _ (i + 1) h2 hj
    have hin := read_headers_boundary_lt mem _ _ (i + 1) hlen
    simp only [header_at, boundary_succ, table_end] at hin ⊢
    exact ⟨hge, hin⟩

/-- Witness for C15: the table of two `vendor_structure`s; the first header is followed
by the second one at offset 43, and behind the second one the walk arrives exactly at
the table end. -/
theorem fixed_portion_inside_when_followed_witness :
    (4096 + 27 + 2 ≤ 4096 + 43 ∧ 4096 + 43 < table_end (native_state 4096 86)) ∧
    4096 + 43 + 27 + 2 ≤ table_end (native_state 4096 86) :=
  ⟨(fixed_portion_inside_when_followed
      (mem_of 4096 (encode_table [vendor_structure, vendor_structure]))
      (native_state 4096 86) 0 { type := 1, length := 27, handle := 0, data := 4096 } rfl
      (by decide)).2 { type := 1, length := 27, handle := 0, data := 4096 + 43 } (by decide),
   (fixed_portion_inside_when_followed
      (mem_of 4096 (encode_table [vendor_structure, vendor_structure]))
      (native_state 4096 86) 1 { type := 1, length := 27, handle := 0, data := 4096 + 43 } rfl
      (by decide)).1 (by decide)⟩

/-- C16: `count_smbios_structures` terminates for every memory content: a fuel of
`table_size` iterations always reaches the end of its outer loop (more fuel changes
nothing), each iteration moves the offset forward by at least 2, and the structure
count it stores is at most `ceil(size / 2)`. -/
theorem count_smbios_structures_terminates (mem : Mem) (st : SMBios) :
    (∀ fuel, get_table_size st ≤ fuel →
      count_loop mem (table_end st) fuel (get_table_base st) 0 =
        get_structures_count (count_smbios_structures mem st)) ∧
    (∀ fuel offset c, offset < table_end st →
      ∃ offset2, offset + 2 ≤ offset2 ∧
        count_loop mem (table_end st) (fuel + 1) offset c =
          count_loop mem (table_end st) fuel offset2 (c + 1)) ∧
    get_structures_count (count_smbios_structures mem st) ≤ (get_table_size st + 1) / 2 := by
  refine ⟨?_, ?_, ?_⟩
  · intro fuel hf
    show count_loop mem (get_table_base st + get_table_size st) fuel (get_table_base st) 0 =
      count_loop mem (get_table_base st + get_table_size st) (get_table_size st)
        (get_table_base st) 0
    exact count_loop_fuel_eq mem _ fuel (get_table_size st) (get_table_base st) 0
      (by omega) (by omega)
  · intro fuel offset c ho
    exact ⟨next_structure mem (table_end st) offset, next_structure_ge mem _ offset,
      count_loop_step mem _ fuel offset c ho⟩
  · exact count_structures_le mem (get_table_base st) (get_table_size st)

/-- Witness for C16: the ten-byte table `corrupt_table`, counted with a fuel of 25 and
stepped once from its base. -/
theorem count_smbios_structures_terminates_witness :
    count_loop (mem_of 4096 corrupt_table) (table_end (native_state 4096 10)) 25
        (get_table_base (native_state 4096 10)) 0 =
      get_structures_count
        (count_smbios_structures (mem_of 4096 corrupt_table) (native_state 4096 10)) ∧
    ∃ offset2, 4096 + 2 ≤ offset2 ∧
      count_loop (mem_of 4096 corrupt_table) (table_end (native_state 4096 10)) (9 + 1) 4096 0 =
        count_loop (mem_of 4096 corrupt_table) (table_end (native_state 4096 10)) 9 offset2
          (0 + 1) :=
  ⟨(count_smbios_structures_terminates (mem_of 4096 corrupt_table)
      (native_state 4096 10)).1 25 (by decide),
   (count_smbios_structures_terminates (mem_of 4096 corrupt_table)
      (native_state 4096 10)).2.1 9 4096 0 (by decide)⟩

/-! ## The offsets that the anchor scan tests -/

theorem scan_loop_tested_mem (size : Nat) :
    ∀ fuel it o, o ∈ scan_loop_tested size fuel it ↔
      ∃ j, j < fuel ∧ o = it + 16 * j ∧ 16 < size - o := by
  intro fuel
  induction fuel with
  | zero => intro it o; simp [scan_loop_tested]
  | succ f ih =>
    intro it o
    simp only [scan_loop_tested]
    by_cases hc : 16 < size - it
    · simp only [hc, if_true, List.mem_cons, ih]
      constructor
      · rintro (h | ⟨j, hj, ho, hs⟩)
        · exact ⟨0, by omega, by omega, by omega⟩
        · exact ⟨j + 1, by omega, by omega, hs⟩
      · rintro ⟨j, hj, ho, hs⟩
        cases j with
        | zero => left; omega
        | succ j => right; exact ⟨j, by omega, by omega, hs⟩
    · simp only [hc, if_false, List.not_mem_nil, false_iff]
      rintro ⟨j, _, ho, hs⟩
      omega

/-- The tested offsets are the multiples of 16 that leave more than 16 bytes up to
the end of the dump. -/
theorem scan_tested_offsets_mem (size o : Nat) :
    o ∈ scan_tested_offsets size ↔ o % 16 = 0 ∧ 16 < size - o := by
  unfold scan_tested_offsets
  rw [scan_loop_tested_mem]
  constructor
  · rintro ⟨j, _, ho, hs⟩
    exact ⟨by omega, hs⟩
  · rintro ⟨ho, hs⟩
    exact ⟨o / 16, by omega, by omega, hs⟩

theorem scan_step_entry32_of_match (devmem : Mem) (it : Nat) (st : SMBios)
    (h : detect_smbios_anchor devmem it = SMBiosAnchorType.SMBios32) :
    (scan_step devmem it st).smbios_entry32_ = true := by
  simp [scan_step, h]

theorem scan_step_entry64_of_match (devmem : Mem) (it : Nat) (st : SMBios)
    (h : detect_smbios_anchor devmem it = SMBiosAnchorType.SMBios64) :
    (scan_step devmem it st).smbios_entry64_ = true := by
  simp [scan_step, h]

theorem scan_step_entry32_mono (devmem : Mem) (it : Nat) (st : SMBios)
    (h : st.smbios_entry32_ = true) : (scan_step devmem it st).smbios_entry32_ = true := by
  unfold scan_step
  split <;> split <;> simp [h]

theorem scan_step_entry64_mono (devmem : Mem) (it : Nat) (st : SMBios)
    (h : st.smbios_entry64_ = true) : (scan_step devmem it st).smbios_entry64_ = true := by
  unfold scan_step
  split <;> split <;> simp [h]

theorem scan_loop_entry32_mono (devmem : Mem) (size : Nat) :
    ∀ fuel it st c, st.smbios_entry32_ = true →
      (scan_loop devmem size fuel it (st, c)).1.smbios_entry32_ = true := by
  intro fuel
  induction fuel with
  | zero => intro it st c h; exact h
  | succ f ih =>
    intro it st c h
    simp only [scan_loop]
    split
    · exact ih _ _ _ (scan_step_entry32_mono devmem it st h)
    · exact h

theorem scan_loop_entry64_mono (devmem : Mem) (size : Nat) :
    ∀ fuel it st c, st.smbios_entry64_ = true →
      (scan_loop devmem size fuel it (st, c)).1.smbios_entry64_ = true := by
  intro fuel
  induction fuel with
  | zero => intro it st c h; exact h
  | succ f ih =>
    intro it st c h
    simp only [scan_loop]
    split
    · exact ih _ _ _ (scan_step_entry64_mono devmem it st h)
    · exact h

/-- A 32-bit anchor at a tested offset sets `smbios_entry32_`. -/
theorem scan_loop_entry32 (devmem : Mem) (size : Nat) :
    ∀ j fuel it st c, j < fuel → 16 < size - (it + 16 * j) →
      detect_smbios_anchor devmem (it + 16 * j) = SMBiosAnchorType.SMBios32 →
      (scan_loop devmem size fuel it (st, c)).1.smbios_entry32_ = true := by
  intro j
  induction j with
  | zero =>
    intro fuel it st c hf hs hd
    obtain ⟨f, rfl⟩ : ∃ f, fuel = f + 1 := ⟨fuel - 1, by omega⟩
    simp only [Nat.mul_zero, Nat.add_zero] at hs hd
    simp only [scan_loop, hs, if_true]
    exact scan_loop_entry32_mono devmem size f _ _ _ (scan_step_entry32_of_match devmem it st hd)
  | succ j ih =>
    intro fuel it st c hf hs hd
    obtain ⟨f, rfl⟩ : ∃ f, fuel = f + 1 := ⟨fuel - 1, by omega⟩
    have hit : 16 < size - it := by omega
    have he : it + 16 * (j + 1) = it + 16 + 16 * j := by omega
    simp only [scan_loop, hit, if_true]
    rw [he] at hs hd
    exact ih f (it + 16) _ _ (by omega) hs hd

/-- A 64-bit anchor at a tested offset sets `smbios_entry64_`. -/
theorem scan_loop_entry64 (devmem : Mem) (size : Nat) :
    ∀ j fuel it st c, j < fuel → 16 < size - (it + 16 * j) →
      detect_smbios_anchor devmem (it + 16 * j) = SMBiosAnchorType.SMBios64 →
      (scan_loop devmem size fuel it (st, c)).1.smbios_entry64_ = true := by
  intro j
  induction j with
  | zero =>
    intro fuel it st c hf hs hd
    obtain ⟨f, rfl⟩ : ∃ f, fuel = f + 1 := ⟨fuel - 1, by omega⟩
    simp only [Nat.mul_zero, Nat.add_zero] at hs hd
    simp only [scan_loop, hs, if_true]
    exact scan_loop_entry64_mono devmem size f _ _ _ (scan_step_entry64_of_match devmem it st hd)
  | succ j ih =>
    intro fuel it st c hf hs hd
    obtain ⟨f, rfl⟩ : ∃ f, fuel = f + 1 := ⟨fuel - 1, by omega⟩
    have hit : 16 < size - it := by omega
    have he : it + 16 * (j + 1) = it + 16 + 16 * j := by omega
    simp only [scan_loop, hit, if_true]
    rw [he] at hs hd
    exact ih f (it + 16) _ _ (by omega) hs hd

/-- The reads of one loop body stay below `it + 31`. -/
theorem scan_step_reads_lt (devmem : Mem) (it a : Nat) (h : a ∈ scan_step_reads devmem it) :
    a < it + smbios32_header_size := by
  simp only [scan_step_reads, smbios32_header_size, smbios64_header_size, List.mem_append,
    List.mem_singleton] at h ⊢
  rcases h with (h | h) | h
  · omega
  · split at h
    · simp only [List.mem_map, List.mem_range] at h
      obtain ⟨k, hk, rfl⟩ := h
      omega
    · simp at h
  · split at h
    · simp only [List.mem_map, List.mem_range] at h
      obtain ⟨k, hk, rfl⟩ := h
      omega
    · simp at h

theorem scan_loop_reads_lt (devmem : Mem) (size : Nat) (hsize : size % 16 = 0) :
    ∀ fuel it, it % 16 = 0 → ∀ a ∈ scan_loop_reads devmem size fuel it, a < size := by
  intro fuel
  induction fuel with
  | zero => intro it _ a h; simp [scan_loop_reads] at h
  | succ f ih =>
    intro it hit a h
    simp only [scan_loop_reads] at h
    split at h
    · rename_i hc
      rw [List.mem_append] at h
      rcases h with h | h
      · have := scan_step_reads_lt devmem it a h
        simp only [smbios32_header_size] at this
        omega
      · exact ih (it + 16) (by omega) a h
    · simp at h

/-- In a dump whose size is a multiple of 16, at least 32 bytes remain at every tested
offset, so the scan reads no offset behind the dump. -/
theorem scan_reads_inside_aligned_dump (devmem : Mem) (size : Nat) (hsize : size % 16 = 0) :
    ∀ a ∈ scan_physical_memory_reads devmem size, a < size :=
  scan_loop_reads_lt devmem size hsize size 0 rfl

/-! ## Further properties of the anchor scan and of the facade -/

/-- C12 (counterexample): in a dump of 32 bytes the offset 16 is a multiple of 16 inside
the dump and carries the signature `_SM_`, but the scan tests offset 0 only and records
no entry point. -/
theorem aligned_anchor_near_end_is_not_tested :
    16 % 16 = 0 ∧ 16 < 32 ∧
    detect_smbios_anchor (mem_of 0 dump_late_anchor) 16 = SMBiosAnchorType.SMBios32 ∧
    scan_tested_offsets 32 = [0] ∧
    (scan_physical_memory (mem_of 0 dump_late_anchor) 32
      (native_state 0 0)).1.smbios_entry32_ = false := by
  decide

/-- C12 (amended): `scan_physical_memory` tests for the two anchor signatures at every
offset that is a multiple of 16 and leaves more than 16 bytes up to the end of the
dump, and at no other offset; an anchor signature at such an offset is detected and the
pointer to its entry point is set. -/
theorem scan_tests_aligned_offsets_with_room (devmem : Mem) (size : Nat) (st : SMBios)
    (o : Nat) :
    (o ∈ scan_tested_offsets size ↔ o % 16 = 0 ∧ 16 < size - o) ∧
    (o ∈ scan_tested_offsets size →
      detect_smbios_anchor devmem o = SMBiosAnchorType.SMBios32 →
      (scan_physical_memory devmem size st).1.smbios_entry32_ = true) ∧
    (o ∈ scan_tested_offsets size →
      detect_smbios_anchor devmem o = SMBiosAnchorType.SMBios64 →
      (scan_physical_memory devmem size st).1.smbios_entry64_ = true) := by
  refine ⟨scan_tested_offsets_mem size o, ?_, ?_⟩
  · intro ho hd
    rw [scan_tested_offsets_mem] at ho
    have hoj : 0 + 16 * (o / 16) = o := by omega
    exact scan_loop_entry32 devmem size (o / 16) size 0 st 0 (by omega)
      (by rw [hoj]; exact ho.2) (by rw [hoj]; exact hd)
  · intro ho hd
    rw [scan_tested_offsets_mem] at ho
    have hoj : 0 + 16 * (o / 16) = o := by omega
    exact scan_loop_entry64 devmem size (o / 16) size 0 st 0 (by omega)
      (by rw [hoj]; exact ho.2) (by rw [hoj]; exact hd)

/-- Witness for C12: the dump of 48 bytes with a 32-bit anchor at offset 0. -/
theorem scan_tests_aligned_offsets_with_room_witness :
    (scan_physical_memory (mem_of 0 dump_one_anchor) 48
      (native_state 0 0)).1.smbios_entry32_ = true :=
  (scan_tests_aligned_offsets_with_room (mem_of 0 dump_one_anchor) 48 (native_state 0 0)
    0).2.1 (by decide) (by decide)

/-- C13 (failing input): in a dump of 20 bytes that starts with the signature `_SM_` the
scan tests offset 0, matches, and copies 31 bytes from there: it reads the offsets 20 to
30, which lie behind the dump, and records the entry point. -/
theorem scan_copies_past_short_dump :
    scan_tested_offsets 20 = [0] ∧
    detect_smbios_anchor (mem_of 0 dump_short_anchor) 0 = SMBiosAnchorType.SMBios32 ∧
    scan_physical_memory_reads (mem_of 0 dump_short_anchor) 20 = 0 :: List.range 31 ∧
    (scan_physical_memory (mem_of 0 dump_short_anchor) 20
      (native_state 0 0)).1.smbios_entry32_ = true ∧
    (scan_physical_memory (mem_of 0 dump_short_anchor) 20
      (native_state 0 0)).1.entry_point_buffer_.length = 31 := by
  decide

/-- C17 (counterexample): with a native source that reports a table base but the size 0,
next to a checksum-valid 32-bit entry point, the base comes from the native source and
the size from the entry point; and a 32-bit entry point that declares the address 0
gives a null base together with the size 49. -/
theorem base_and_size_from_different_sources :
    (table_base_source mixed_source_state = TableSource.native ∧
      table_size_source mixed_source_state = TableSource.entry32 ∧
      get_table_base mixed_source_state = 4096 ∧
      get_table_size mixed_source_state = 49) ∧
    (get_table_base null_address_state = 0 ∧ get_table_size null_address_state = 49) := by
  decide

/-- C17 (amended): when the native source reports a non-null base exactly when it reports
a non-zero size, `get_table_base` and `get_table_size` return from the same branch:
both from the native source, both from the 32-bit entry point, both from the 64-bit
entry point, or both the defaults null and 0. -/
theorem table_base_and_size_share_source (st : SMBios)
    (h : st.native_impl_.table_base ≠ 0 ↔ st.native_impl_.table_size ≠ 0) :
    get_table_base st = base_of_source st (table_base_source st) ∧
    get_table_size st = size_of_source st (table_size_source st) ∧
    table_base_source st = table_size_source st ∧
    (table_base_source st = TableSource.none →
      get_table_base st = 0 ∧ get_table_size st = 0) := by
  have hb : get_table_base st = base_of_source st (table_base_source st) := by
    unfold get_table_base table_base_source
    split
    · rfl
    · split
      · rfl
      · split <;> rfl
  have hs : get_table_size st = size_of_source st (table_size_source st) := by
    unfold get_table_size table_size_source
    split
    · rfl
    · split
      · rfl
      · split <;> rfl
  have heq : table_base_source st = table_size_source st := by
    unfold table_base_source table_size_source
    by_cases hn : st.native_impl_.table_base ≠ 0
    · rw [if_pos hn, if_pos (h.1 hn)]
    · rw [if_neg hn, if_neg (fun hc => hn (h.2 hc))]
  refine ⟨hb, hs, heq, ?_⟩
  intro hnone
  rw [hb, hs, ← heq, hnone]
  exact ⟨rfl, rfl⟩

/-- Witness for C17: the state `both_entries_state`, where both values come from the
32-bit entry point. -/
theorem table_base_and_size_share_source_witness :
    table_base_source both_entries_state = TableSource.entry32 ∧
    table_size_source both_entries_state = TableSource.entry32 := by
  have h := table_base_and_size_share_source both_entries_state (by decide)
  have h1 : table_base_source both_entries_state = TableSource.entry32 := by decide
  exact ⟨h1, h.2.2.1 ▸ h1⟩

end smbios
